import Mathlib

/-!
# Verification of `kraken/lib/morph.py`

A shallow embedding of the morphology helpers in `kraken/lib/morph.py`
(add-ons to the SciPy morphology package), together with theorems that
settle the specification claims about them.

Conventions of the embedding:
* numpy arrays of numbers become `Grid := List (List Int)`; machine
  integers are modelled as unbounded `Int` (no claim here exercises
  integer overflow);
* the floating point intermediate of `uniform_filter` is modelled by
  exact rational arithmetic (`Rat`);
* a raised exception becomes `none` in an `Option` result;
* the SciPy library routines (`measurements.label`, `find_objects`,
  `maximum_filter`, `minimum_filter`, `uniform_filter`,
  `distance_transform_edt`) are not part of the repository; they are
  modelled from their documented SciPy semantics.
-/

namespace Morph

/-! ## Dtype-retry wrappers `label` and `find_objects` (morph.py lines 11-48) -/

/-- Dtype strings accepted by `np.array(..., dtype=t)`; the misspelling
`"unit64"` is not among them, so coercion to it raises `TypeError`. -/
def validNumpyDtypes : List String :=
  ["bool", "int8", "uint8", "int16", "uint16", "int32", "uint32",
   "int64", "uint64", "float32", "float64"]

/-- The retry dtype list of `morph.label` and `morph.find_objects`,
copied verbatim from the source (line 21 / line 41): note the
misspelled entry `"unit64"` where `"uint64"` was evidently intended. -/
def retryTypes : List String :=
  ["int32", "uint32", "int64", "unit64", "int16", "uint16"]

/-- The retry loop `for t in types: try ... except: pass` of the wrappers.
The underlying SciPy routine applied to the fixed input image is modelled
by an oracle `raw : String → Option R` giving its outcome as a function of
the dtype the image was coerced to (`none` = the routine raised).
`np.array(image, dtype=t)` itself raises for an invalid dtype string, and
that exception is swallowed by the bare `except`, so the routine is only
consulted for valid dtype names. -/
def tryTypes {R : Type} (raw : String → Option R) : List String → Option R
  | [] => none
  | t :: ts =>
    if t ∈ validNumpyDtypes then
      match raw t with
      | some r => some r
      | none => tryTypes raw ts
    else tryTypes raw ts

/-- `morph.label` (lines 11-28): try the routine on the original image
(of dtype `orig`), then retry on the image coerced to each dtype in
`retryTypes`, and finally call the routine once more on the original
input so that its own exception propagates. -/
def label {R : Type} (raw : String → Option R) (orig : String) : Option R :=
  match raw orig with
  | some r => some r
  | none =>
    match tryTypes raw retryTypes with
    | some r => some r
    | none => raw orig

/-- `morph.find_objects` (lines 31-48): identical retry structure. -/
def find_objects {R : Type} (raw : String → Option R) (orig : String) : Option R :=
  match raw orig with
  | some r => some r
  | none =>
    match tryTypes raw retryTypes with
    | some r => some r
    | none => raw orig

/-- An underlying routine that succeeds exactly when the image has been
coerced to `uint64` (the docstring notes the routine "is inconsistent
about the data types it accepts on different platforms"). -/
def rawUint64Only : String → Option Nat :=
  fun t => if t = "uint64" then some 1 else none

/-- **C1.** The claim says the wrappers retry with int32, uint32, int64,
uint64, int16 and uint16.  The source's retry list instead contains the
misspelled dtype string `"unit64"`, which `np.array` rejects, so the
uint64 retry is silently skipped: on an input whose labeling succeeds
only under uint64 coercion, both wrappers end up re-raising the original
exception instead of returning the uint64 result. -/
theorem label_find_objects_uint64_never_retried :
    label rawUint64Only "float64" = none ∧
    find_objects rawUint64Only "float64" = none ∧
    rawUint64Only "uint64" = some 1 ∧
    "unit64" ∈ retryTypes ∧ "uint64" ∉ retryTypes ∧
    "unit64" ∉ validNumpyDtypes := by decide

/-! ## Grids (2-dimensional numpy arrays of numbers) -/

/-- A 2-dimensional numeric numpy array, as a list of rows. -/
abbrev Grid := List (List Int)

def nrows (g : Grid) : Nat := g.length

def ncols (g : Grid) : Nat := (g.headD []).length

/-- Rectangularity: every row has the common length `ncols g`. -/
def wellformed (g : Grid) : Prop := ∀ row ∈ g, row.length = ncols g

instance (g : Grid) : Decidable (wellformed g) := by
  unfold wellformed; infer_instance

/-- Element access with a default outside the array. -/
def getD2 {α : Type} (g : List (List α)) (i j : Nat) (d : α) : α :=
  (g.getD i []).getD j d

/-- Element access with a default of 0 outside the array. -/
def gget (g : Grid) (i j : Nat) : Int := getD2 g i j 0

/-- Build an `r × c` array of entries from an entry function. -/
def mkGrid {α : Type} (r c : Nat) (f : Nat → Nat → α) : List (List α) :=
  (List.range r).map (fun i => (List.range c).map (fun j => f i j))

theorem getD2_mkGrid {α : Type} {r c : Nat} (f : Nat → Nat → α) (d : α) {i j : Nat}
    (hi : i < r) (hj : j < c) : getD2 (mkGrid r c f) i j d = f i j := by
  simp [getD2, mkGrid, List.getD_eq_getElem?_getD, List.getElem?_map,
    List.getElem?_range, hi, hj]

theorem gget_mkGrid {r c : Nat} (f : Nat → Nat → Int) {i j : Nat}
    (hi : i < r) (hj : j < c) : gget (mkGrid r c f) i j = f i j :=
  getD2_mkGrid f 0 hi hj

theorem length_mkGrid {α : Type} (r c : Nat) (f : Nat → Nat → α) :
    (mkGrid r c f).length = r := by
  simp [mkGrid]

theorem nrows_mkGrid (r c : Nat) (f : Nat → Nat → Int) :
    nrows (mkGrid r c f) = r :=
  length_mkGrid r c f

theorem head_mkGrid {α : Type} (r c : Nat) (f : Nat → Nat → α) (hr : 0 < r) :
    ((mkGrid r c f).headD []).length = c := by
  unfold mkGrid
  obtain ⟨r', rfl⟩ : ∃ r', r = r' + 1 := ⟨r - 1, by omega⟩
  simp [List.range_succ_eq_map]

theorem ncols_mkGrid (r c : Nat) (f : Nat → Nat → Int) (hr : 0 < r) :
    ncols (mkGrid r c f) = c :=
  head_mkGrid r c f hr

theorem wellformed_mkGrid (r c : Nat) (f : Nat → Nat → Int) :
    wellformed (mkGrid r c f) := by
  intro row hrow
  rcases List.mem_map.1 hrow with ⟨i, hi, rfl⟩
  rcases Nat.eq_zero_or_pos r with hr | hr
  · subst hr; simp at hi
  · simp [ncols_mkGrid r c f hr]

theorem mkGrid_congr {α : Type} {r c : Nat} {f f' : Nat → Nat → α}
    (h : ∀ i < r, ∀ j < c, f i j = f' i j) : mkGrid r c f = mkGrid r c f' := by
  unfold mkGrid
  refine List.map_congr_left (fun i hi => ?_)
  exact List.map_congr_left (fun j hj => h i (List.mem_range.1 hi) j (List.mem_range.1 hj))

theorem map_map_mkGrid {α β : Type} (r c : Nat) (f : Nat → Nat → α) (h : α → β) :
    (mkGrid r c f).map (fun row => row.map h) = mkGrid r c (fun i j => h (f i j)) := by
  simp [mkGrid, List.map_map]

/-! ## SciPy correlate-style filters

`maximum_filter` and `minimum_filter` use the default boundary mode
`reflect`; `uniform_filter` is called by the `rb_` functions with
`mode='constant'` and an explicit `cval`.  For a window of length
`size` and shift `origin`, the window at output index `i` covers input
indices `i - size/2 + origin + t` for `t < size`. -/

/-- SciPy boundary mode `reflect` (`(d c b a | a b c d | d c b a)`):
fold an arbitrary index into `[0, n)`. -/
def reflectIdx (n : Nat) (a : Int) : Nat :=
  if (a % (2 * (n : Int))).toNat < n then (a % (2 * (n : Int))).toNat
  else 2 * n - 1 - (a % (2 * (n : Int))).toNat

/-- The input indices covered by a size-`size` window with shift
`origin` centred at output index `i`. -/
def windowIdxs (size : Nat) (origin : Int) (i : Nat) : List Int :=
  (List.range size).map (fun (t : Nat) => (i : Int) - (size / 2 : Nat) - origin + (t : Int))

def listMax (l : List Int) : Int := l.foldl max (l.headD 0)

def listMin (l : List Int) : Int := l.foldl min (l.headD 0)

/-- The input values seen through a reflect-mode window at `(i, j)`. -/
def windowVals (g : Grid) (size : Nat) (origin : Int) (i j : Nat) : List Int :=
  ((windowIdxs size origin i).map (fun a =>
    (windowIdxs size origin j).map (fun b =>
      gget g (reflectIdx (nrows g) a) (reflectIdx (ncols g) b)))).join

/-- `scipy.ndimage.filters.maximum_filter` with a square `size` window,
scalar `origin` and default boundary mode `reflect`. -/
def maximum_filter (g : Grid) (size : Nat) (origin : Int) : Grid :=
  mkGrid (nrows g) (ncols g) (fun i j => listMax (windowVals g size origin i j))

/-- `scipy.ndimage.filters.minimum_filter`, same conventions. -/
def minimum_filter (g : Grid) (size : Nat) (origin : Int) : Grid :=
  mkGrid (nrows g) (ncols g) (fun i j => listMin (windowVals g size origin i j))

/-- Value of the constant-padded input at integer coordinates. -/
def padVal (g : Grid) (cval : Rat) (a b : Int) : Rat :=
  if 0 ≤ a ∧ a < (nrows g : Int) ∧ 0 ≤ b ∧ b < (ncols g : Int) then
    ((gget g a.toNat b.toNat : Int) : Rat)
  else cval

/-- Sum of the window of the constant-padded input at `(i, j)`. -/
def windowSum (g : Grid) (cval : Rat) (size : Nat) (origin : Int) (i j : Nat) : Rat :=
  (((windowIdxs size origin i).map (fun a =>
    (windowIdxs size origin j).map (fun b => padVal g cval a b))).join).sum

/-- `scipy.ndimage.filters.uniform_filter` with `mode='constant'` and
padding value `cval`: the exact mean of the padded window. -/
def uniform_filter (g : Grid) (size : Nat) (origin : Int) (cval : Rat) :
    List (List Rat) :=
  mkGrid (nrows g) (ncols g) (fun i j =>
    windowSum g cval size origin i j / ((size * size : Nat) : Rat))

/-! ## numpy arrays with a dtype, and `check_binary` (lines 51-56) -/

inductive Dtype
  | uint8 | int32 | int64 | bool | float32 | float64
  deriving DecidableEq

/-- A numpy array: a dtype together with the 2-dimensional data. -/
structure NpArray where
  dtype : Dtype
  data : Grid
  deriving DecidableEq

/-- `np.amin` of the flattened (nonempty) array. -/
def amin (l : List Int) : Int := l.foldl min (l.headD 0)

/-- `np.amax` of the flattened (nonempty) array. -/
def amax (l : List Int) : Int := l.foldl max (l.headD 0)

/-- `morph.check_binary`: the dtype must be `'B'` (uint8), `'i'` (int32)
or `bool`, and all values must lie in `[0, 1]`; returns `false` when the
assertions would fire. -/
def check_binary (image : NpArray) : Bool :=
  decide ((image.dtype = Dtype.uint8 ∨ image.dtype = Dtype.int32 ∨
      image.dtype = Dtype.bool) ∧
    0 ≤ amin image.data.join ∧ amax image.data.join ≤ 1)

/-! ## The morphology operations (lines 59-132) -/

/-- `r_dilation`: maximum filter. -/
def r_dilation (image : NpArray) (size : Nat) (origin : Int) : NpArray :=
  ⟨image.dtype, maximum_filter image.data size origin⟩

/-- `r_erosion`: minimum filter. -/
def r_erosion (image : NpArray) (size : Nat) (origin : Int) : NpArray :=
  ⟨image.dtype, minimum_filter image.data size origin⟩

/-- `r_opening`: binary check, then erosion followed by dilation, the
caller's `origin` passed to both stages; `none` models the
`AssertionError` of `check_binary`. -/
def r_opening (image : NpArray) (size : Nat) (origin : Int) : Option NpArray :=
  if check_binary image then
    some (r_dilation (r_erosion image size origin) size origin)
  else none

/-- `r_closing`: binary check, then dilation followed by erosion; the
source passes `origin=0` to both stages (lines 81-82), ignoring the
caller's `origin`. -/
def r_closing (image : NpArray) (size : Nat) (origin : Int) : Option NpArray :=
  if check_binary image then
    some (r_erosion (r_dilation image size 0) size 0)
  else none

/-- `rb_dilation`: uniform filter with constant padding 0, then `> 0`,
as an int32 (`'i'`) array. -/
def rb_dilation (image : NpArray) (size : Nat) (origin : Int) : NpArray :=
  let output := uniform_filter image.data size origin 0
  ⟨Dtype.int32, output.map (fun row => row.map (fun x => if 0 < x then (1 : Int) else 0))⟩

/-- `rb_erosion`: uniform filter with constant padding 1, then `== 1`,
as an int32 (`'i'`) array. -/
def rb_erosion (image : NpArray) (size : Nat) (origin : Int) : NpArray :=
  let output := uniform_filter image.data size origin 1
  ⟨Dtype.int32, output.map (fun row => row.map (fun x => if x = 1 then (1 : Int) else 0))⟩

/-- `rb_opening`: erosion then dilation, caller's origin in both stages. -/
def rb_opening (image : NpArray) (size : Nat) (origin : Int) : NpArray :=
  rb_dilation (rb_erosion image size origin) size origin

/-- `rb_closing`: dilation then erosion, caller's origin in both stages. -/
def rb_closing (image : NpArray) (size : Nat) (origin : Int) : NpArray :=
  rb_erosion (rb_dilation image size origin) size origin

/-- `rg_dilation`: grayscale, maximum filter, no binary check. -/
def rg_dilation (image : NpArray) (size : Nat) (origin : Int) : NpArray :=
  ⟨image.dtype, maximum_filter image.data size origin⟩

/-- `rg_erosion`: grayscale, minimum filter, no binary check. -/
def rg_erosion (image : NpArray) (size : Nat) (origin : Int) : NpArray :=
  ⟨image.dtype, minimum_filter image.data size origin⟩

/-- `rg_opening`: erosion then dilation (via `r_erosion`/`r_dilation`,
lines 125-126), caller's origin in both stages, no binary check. -/
def rg_opening (image : NpArray) (size : Nat) (origin : Int) : NpArray :=
  r_dilation (r_erosion image size origin) size origin

/-- `rg_closing`: dilation then erosion with `origin=0` in both stages
(lines 131-132), ignoring the caller's `origin`; no binary check. -/
def rg_closing (image : NpArray) (size : Nat) (origin : Int) : NpArray :=
  r_erosion (r_dilation image size 0) size 0

/-! ## C6: opening = erosion;dilation and closing = dilation;erosion -/

/-- **C6 (counterexample).** The claim says `r_closing` passes the
caller's origin to both stages.  On the binary image `[[1,0,0]]` with
`size = 3` and `origin = 1` (a valid SciPy origin for size 3), the
actual `r_closing` — which hardcodes `origin=0` in both stages — yields
`[[1,0,0]]`, while dilation-then-erosion with the caller's origin
yields `[[0,0,0]]`. -/
theorem r_closing_origin_cex :
    r_closing ⟨Dtype.uint8, [[1, 0, 0]]⟩ 3 1 ≠
      some (r_erosion (r_dilation ⟨Dtype.uint8, [[1, 0, 0]]⟩ 3 1) 3 1) := by
  decide

/-- **C6 (amended).** In each variant family, opening is erosion
followed by dilation and closing is dilation followed by erosion with
the same size in both stages; `r_opening`, `rb_opening`, `rb_closing`
and `rg_opening` pass the caller's origin to both stages, while
`r_closing` and `rg_closing` pass `origin = 0` to both stages
regardless of the `origin` argument. -/
theorem opening_closing_composition (image : NpArray) (size : Nat) (origin : Int)
    (h : check_binary image = true) :
    r_opening image size origin =
      some (r_dilation (r_erosion image size origin) size origin) ∧
    r_closing image size origin =
      some (r_erosion (r_dilation image size 0) size 0) ∧
    rb_opening image size origin = rb_dilation (rb_erosion image size origin) size origin ∧
    rb_closing image size origin = rb_erosion (rb_dilation image size origin) size origin ∧
    rg_opening image size origin = r_dilation (r_erosion image size origin) size origin ∧
    rg_closing image size origin = r_erosion (r_dilation image size 0) size 0 := by
  refine ⟨?_, ?_, rfl, rfl, rfl, rfl⟩ <;> simp [r_opening, r_closing, h]

/-- Witness for C6 at the binary image `[[1,0]]`, size 2, origin 0. -/
theorem opening_closing_composition_witness :
    check_binary ⟨Dtype.uint8, [[1, 0]]⟩ = true ∧
    r_opening ⟨Dtype.uint8, [[1, 0]]⟩ 2 0 =
      some (r_dilation (r_erosion ⟨Dtype.uint8, [[1, 0]]⟩ 2 0) 2 0) :=
  ⟨by decide, (opening_closing_composition ⟨Dtype.uint8, [[1, 0]]⟩ 2 0 (by decide)).1⟩

/-! ## C8: the `rb_` functions always return 0/1-valued int32 arrays -/

theorem rb_dilation_data (image : NpArray) (size : Nat) (origin : Int) :
    (rb_dilation image size origin).data =
      mkGrid (nrows image.data) (ncols image.data) (fun i j =>
        if 0 < windowSum image.data 0 size origin i j / ((size * size : Nat) : Rat)
        then (1 : Int) else 0) := by
  unfold rb_dilation uniform_filter
  exact map_map_mkGrid _ _ _ _

theorem rb_erosion_data (image : NpArray) (size : Nat) (origin : Int) :
    (rb_erosion image size origin).data =
      mkGrid (nrows image.data) (ncols image.data) (fun i j =>
        if windowSum image.data 1 size origin i j / ((size * size : Nat) : Rat) = 1
        then (1 : Int) else 0) := by
  unfold rb_erosion uniform_filter
  exact map_map_mkGrid _ _ _ _

theorem mem_mkGrid_binary {r c : Nat} {p : Nat → Nat → Prop} [∀ i j, Decidable (p i j)] :
    ∀ row ∈ mkGrid r c (fun i j => if p i j then (1 : Int) else 0),
      ∀ x ∈ row, x = 0 ∨ x = 1 := by
  intro row hrow x hx
  rcases List.mem_map.1 hrow with ⟨i, _, rfl⟩
  rcases List.mem_map.1 hx with ⟨j, _, rfl⟩
  by_cases h : p i j <;> simp [h]

theorem shape_nrows_mkGrid_self (g : Grid) (f : Nat → Nat → Int) :
    nrows (mkGrid (nrows g) (ncols g) f) = nrows g :=
  nrows_mkGrid _ _ _

theorem shape_ncols_mkGrid_self (g : Grid) (f : Nat → Nat → Int) :
    ncols (mkGrid (nrows g) (ncols g) f) = ncols g := by
  rcases g with _ | ⟨row, rows⟩
  · rfl
  · exact ncols_mkGrid _ _ _ (by simp [nrows])

/-- Shape/dtype/value facts shared by the four `rb_` results. -/
def rbOutputOk (a : NpArray) (res : NpArray) : Prop :=
  res.dtype = Dtype.int32 ∧ nrows res.data = nrows a.data ∧
    ncols res.data = ncols a.data ∧
    ∀ row ∈ res.data, ∀ x ∈ row, x = 0 ∨ x = 1

theorem rb_dilation_output_ok (image : NpArray) (size : Nat) (origin : Int) :
    rbOutputOk image (rb_dilation image size origin) := by
  refine ⟨rfl, ?_, ?_, ?_⟩ <;> rw [rb_dilation_data]
  · exact shape_nrows_mkGrid_self _ _
  · exact shape_ncols_mkGrid_self _ _
  · exact mem_mkGrid_binary

theorem rb_erosion_output_ok (image : NpArray) (size : Nat) (origin : Int) :
    rbOutputOk image (rb_erosion image size origin) := by
  refine ⟨rfl, ?_, ?_, ?_⟩ <;> rw [rb_erosion_data]
  · exact shape_nrows_mkGrid_self _ _
  · exact shape_ncols_mkGrid_self _ _
  · exact mem_mkGrid_binary

/-- **C8.** For every input array — binary or not — `rb_dilation`,
`rb_erosion`, `rb_opening` and `rb_closing` return int32 (`'i'`) arrays
of the same shape as the input whose entries are all 0 or 1. -/
theorem rb_outputs_binary (image : NpArray) (size : Nat) (origin : Int) :
    rbOutputOk image (rb_dilation image size origin) ∧
    rbOutputOk image (rb_erosion image size origin) ∧
    rbOutputOk image (rb_opening image size origin) ∧
    rbOutputOk image (rb_closing image size origin) := by
  refine ⟨rb_dilation_output_ok _ _ _, rb_erosion_output_ok _ _ _, ?_, ?_⟩
  · have h1 := rb_erosion_output_ok image size origin
    have h2 := rb_dilation_output_ok (rb_erosion image size origin) size origin
    exact ⟨h2.1, h2.2.1.trans h1.2.1, h2.2.2.1.trans h1.2.2.1, h2.2.2.2⟩
  · have h1 := rb_dilation_output_ok image size origin
    have h2 := rb_erosion_output_ok (rb_dilation image size origin) size origin
    exact ⟨h2.1, h2.2.1.trans h1.2.1, h2.2.2.1.trans h1.2.2.1, h2.2.2.2⟩

/-! ## C9: only `r_opening`/`r_closing` validate binariness -/

/-- **C9.** `r_opening` and `r_closing` raise `AssertionError` exactly
when the binary check fails — the dtype is none of uint8 (`'B'`), int32
(`'i'`) or bool, or some value lies outside `[0, 1]` — while the
grayscale (`rg_`) and uniform-filter (`rb_`) opening/closing variants
perform no validation: they compute their two filter stages on any
input, even one failing the binary check. -/
theorem binary_check_raising (image : NpArray) (size : Nat) (origin : Int)
    (hne : image.data.join ≠ []) :
    (check_binary image = false ↔
      ((image.dtype ≠ Dtype.uint8 ∧ image.dtype ≠ Dtype.int32 ∧
          image.dtype ≠ Dtype.bool) ∨
        amin image.data.join < 0 ∨ 1 < amax image.data.join)) ∧
    (r_opening image size origin = none ↔ check_binary image = false) ∧
    (r_closing image size origin = none ↔ check_binary image = false) ∧
    (rg_opening image size origin = r_dilation (r_erosion image size origin) size origin) ∧
    (rg_closing image size origin = r_erosion (r_dilation image size 0) size 0) ∧
    (rb_opening image size origin = rb_dilation (rb_erosion image size origin) size origin) ∧
    (rb_closing image size origin = rb_erosion (rb_dilation image size origin) size origin) := by
  refine ⟨?_, ?_, ?_, rfl, rfl, rfl, rfl⟩
  · rw [check_binary]
    simp only [decide_eq_false_iff_not, not_and_or, not_or, not_le]
  · unfold r_opening
    cases h : check_binary image <;> simp
  · unfold r_closing
    cases h : check_binary image <;> simp

/-- Witness for C9 at a float64 array with a value 2: the check fails,
`r_opening` raises, and `rg_opening` still computes the composition. -/
theorem binary_check_raising_witness :
    (⟨Dtype.float64, [[2]]⟩ : NpArray).data.join ≠ [] ∧
    (r_opening ⟨Dtype.float64, [[2]]⟩ 2 0 = none ↔
      check_binary ⟨Dtype.float64, [[2]]⟩ = false) :=
  ⟨by decide, (binary_check_raising ⟨Dtype.float64, [[2]]⟩ 2 0 (by decide)).2.1⟩

/-! ## C7: fold, reflection and window-sum lemmas -/

theorem foldl_max_mem (l : List Int) (x : Int) :
    l.foldl max x = x ∨ l.foldl max x ∈ l := by
  induction l generalizing x with
  | nil => left; rfl
  | cons a t ih =>
    rcases ih (max x a) with h | h
    · rcases max_choice x a with he | he
      · left; rw [List.foldl_cons, h, he]
      · right; rw [List.foldl_cons, h, he]; exact List.mem_cons_self a t
    · right; exact List.mem_cons_of_mem a h

theorem le_foldl_max (l : List Int) (x : Int) : x ≤ l.foldl max x := by
  induction l generalizing x with
  | nil => simp
  | cons a t ih => exact le_trans (le_max_left x a) (ih (max x a))

theorem mem_le_foldl_max (l : List Int) (x : Int) : ∀ y ∈ l, y ≤ l.foldl max x := by
  induction l generalizing x with
  | nil => simp
  | cons a t ih =>
    intro y hy
    rcases List.mem_cons.1 hy with rfl | hy
    · exact le_trans (le_max_right x y) (le_foldl_max t (max x y))
    · exact ih (max x a) y hy

theorem foldl_min_mem (l : List Int) (x : Int) :
    l.foldl min x = x ∨ l.foldl min x ∈ l := by
  induction l generalizing x with
  | nil => left; rfl
  | cons a t ih =>
    rcases ih (min x a) with h | h
    · rcases min_choice x a with he | he
      · left; rw [List.foldl_cons, h, he]
      · right; rw [List.foldl_cons, h, he]; exact List.mem_cons_self a t
    · right; exact List.mem_cons_of_mem a h

theorem foldl_min_le (l : List Int) (x : Int) : l.foldl min x ≤ x := by
  induction l generalizing x with
  | nil => simp
  | cons a t ih => exact le_trans (ih (min x a)) (min_le_left x a)

theorem foldl_min_le_mem (l : List Int) (x : Int) : ∀ y ∈ l, l.foldl min x ≤ y := by
  induction l generalizing x with
  | nil => simp
  | cons a t ih =>
    intro y hy
    rcases List.mem_cons.1 hy with rfl | hy
    · exact le_trans (foldl_min_le t (min x y)) (min_le_right x y)
    · exact ih (min x a) y hy

theorem headD_mem (l : List Int) (hne : l ≠ []) : l.headD 0 ∈ l := by
  rcases l with _ | ⟨a, t⟩
  · exact absurd rfl hne
  · exact List.mem_cons_self a t

theorem listMax_mem (l : List Int) (hne : l ≠ []) : listMax l ∈ l := by
  rcases foldl_max_mem l (l.headD 0) with h | h
  · rw [listMax, h]; exact headD_mem l hne
  · exact h

theorem listMin_mem (l : List Int) (hne : l ≠ []) : listMin l ∈ l := by
  rcases foldl_min_mem l (l.headD 0) with h | h
  · rw [listMin, h]; exact headD_mem l hne
  · exact h

/-- On a nonempty list of 0/1 values, the maximum is 1 exactly when a 1
occurs. -/
theorem listMax_binary (l : List Int) (hne : l ≠ [])
    (hb : ∀ x ∈ l, x = 0 ∨ x = 1) :
    listMax l = if ∃ x ∈ l, x = 1 then 1 else 0 := by
  have hmem := listMax_mem l hne
  by_cases h : ∃ x ∈ l, x = 1
  · rw [if_pos h]
    rcases h with ⟨y, hy, hy1⟩
    have h1 : y ≤ listMax l := mem_le_foldl_max l _ y hy
    have h2 := hb _ hmem
    omega
  · rw [if_neg h]
    push_neg at h
    rcases hb _ hmem with h2 | h2
    · exact h2
    · exact absurd h2 (h _ hmem)

/-- On a nonempty list of 0/1 values, the minimum is 1 exactly when all
values are 1. -/
theorem listMin_binary (l : List Int) (hne : l ≠ [])
    (hb : ∀ x ∈ l, x = 0 ∨ x = 1) :
    listMin l = if ∀ x ∈ l, x = 1 then 1 else 0 := by
  have hmem := listMin_mem l hne
  by_cases h : ∀ x ∈ l, x = 1
  · rw [if_pos h]; exact h _ hmem
  · rw [if_neg h]
    push_neg at h
    rcases h with ⟨y, hy, hy1⟩
    have h0 : y = 0 := by rcases hb _ hy with h2 | h2 <;> omega
    have h1 : listMin l ≤ y := foldl_min_le_mem l _ y hy
    have h2 := hb _ hmem
    omega

theorem reflectIdx_lt {n : Nat} (hn : 0 < n) (a : Int) : reflectIdx n a < n := by
  unfold reflectIdx
  have h2 : (0 : Int) < 2 * (n : Int) := by positivity
  have h0 : 0 ≤ a % (2 * (n : Int)) := Int.emod_nonneg a (by omega)
  have h1 : a % (2 * (n : Int)) < 2 * (n : Int) := Int.emod_lt_of_pos a h2
  split <;> omega

theorem reflectIdx_self {n : Nat} {a : Int} (h0 : 0 ≤ a) (h : a < (n : Int)) :
    (reflectIdx n a : Int) = a := by
  unfold reflectIdx
  have hmod : a % (2 * (n : Int)) = a := Int.emod_eq_of_lt h0 (by omega)
  rw [hmod]
  split <;> omega

/-- Key geometric fact behind the origin-0 equivalence: for a size-`s`
window centred (with `origin = 0`) at an in-range output index `i`, the
reflection of any window index lands back inside the window. -/
theorem reflectIdx_mem_window {n s i : Nat} {a : Int} (hn : 0 < n) (hs : 0 < s)
    (hi : i < n) (hlo : (i : Int) - (s / 2 : Nat) ≤ a)
    (hhi : a ≤ (i : Int) - (s / 2 : Nat) + s - 1) :
    (i : Int) - (s / 2 : Nat) ≤ (reflectIdx n a : Int) ∧
      (reflectIdx n a : Int) ≤ (i : Int) - (s / 2 : Nat) + s - 1 := by
  have h2 : (0 : Int) < 2 * (n : Int) := by positivity
  have hdm := Int.ediv_add_emod a (2 * (n : Int))
  set k := a / (2 * (n : Int)) with hk
  set m := a % (2 * (n : Int)) with hm
  have hm0 : 0 ≤ m := Int.emod_nonneg a (by omega)
  have hm1 : m < 2 * (n : Int) := Int.emod_lt_of_pos a h2
  have hval : reflectIdx n a =
      if m.toNat < n then m.toNat else 2 * n - 1 - m.toNat := by
    rw [reflectIdx, ← hm]
  rcases lt_trichotomy k (-1) with hkc | hkc | hkc
  · have hb : 2 * (n : Int) * k ≤ 2 * (n : Int) * (-2) :=
      mul_le_mul_of_nonneg_left (by omega) (by omega)
    have h4 : a ≤ m - 4 * (n : Int) := by
      have hx : 2 * (n : Int) * (-2) = -(4 * (n : Int)) := by ring
      rw [hx] at hb; linarith
    rw [hval]; split <;> omega
  · have h4 : a = m - 2 * (n : Int) := by
      rw [hkc] at hdm; linarith
    rw [hval]; split <;> omega
  · rcases eq_or_lt_of_le (by omega : (0 : Int) ≤ k) with hk0 | hk1
    · have h4 : a = m := by rw [← hk0] at hdm; linarith
      rw [hval]; split <;> omega
    · have hb : 2 * (n : Int) * 1 ≤ 2 * (n : Int) * k :=
        mul_le_mul_of_nonneg_left (by omega) (by omega)
      have h4 : 2 * (n : Int) + m ≤ a := by
        have hx : 2 * (n : Int) * 1 = 2 * (n : Int) := by ring
        rw [hx] at hb; linarith
      rw [hval]; split <;> omega

theorem mem_windowIdxs {size : Nat} {origin : Int} {i : Nat} {x : Int} :
    x ∈ windowIdxs size origin i ↔
      (i : Int) - (size / 2 : Nat) - origin ≤ x ∧
        x ≤ (i : Int) - (size / 2 : Nat) - origin + size - 1 := by
  constructor
  · intro hx
    rcases List.mem_map.1 hx with ⟨t, ht, rfl⟩
    have ht2 := List.mem_range.1 ht
    omega
  · rintro ⟨h1, h2⟩
    refine List.mem_map.2 ⟨(x - ((i : Int) - (size / 2 : Nat) - origin)).toNat,
      List.mem_range.2 (by omega), by omega⟩

theorem mem_window_join {β : Type} {s : Nat} {o : Int} {i j : Nat}
    {f : Int → Int → β} {v : β} :
    (v ∈ ((windowIdxs s o i).map (fun a =>
        (windowIdxs s o j).map (fun b => f a b))).join) ↔
      ∃ a ∈ windowIdxs s o i, ∃ b ∈ windowIdxs s o j, v = f a b := by
  simp only [List.mem_join, List.mem_map]
  constructor
  · rintro ⟨L, ⟨a, ha, rfl⟩, hv⟩
    rcases List.mem_map.1 hv with ⟨b, hb, rfl⟩
    exact ⟨a, ha, b, hb, rfl⟩
  · rintro ⟨a, ha, b, hb, rfl⟩
    exact ⟨(windowIdxs s o j).map (fun b => f a b), ⟨a, ha, rfl⟩,
      List.mem_map.2 ⟨b, hb, rfl⟩⟩

theorem sum_map_const_nat {β : Type} (l : List β) (c : Nat) :
    (l.map (fun _ => c)).sum = l.length * c := by
  induction l with
  | nil => simp
  | cons a t ih => simp [ih]; ring

theorem length_window_join {β : Type} (s : Nat) (o : Int) (i j : Nat)
    (f : Int → Int → β) :
    (((windowIdxs s o i).map (fun a =>
        (windowIdxs s o j).map (fun b => f a b))).join).length = s * s := by
  rw [List.length_join, List.map_map]
  have h1 : (List.length ∘ fun a => (windowIdxs s o j).map (fun b => f a b)) =
      fun _ => s := by
    funext a
    simp only [Function.comp_apply, List.length_map, windowIdxs, List.length_range]
  rw [h1, sum_map_const_nat, windowIdxs, List.length_map, List.length_range]

theorem windowVals_ne_nil {g : Grid} {size : Nat} {origin : Int} {i j : Nat}
    (hs : 0 < size) : windowVals g size origin i j ≠ [] := by
  have h := length_window_join size origin i j (fun a b =>
    gget g (reflectIdx (nrows g) a) (reflectIdx (ncols g) b))
  intro hc
  rw [windowVals] at hc
  rw [hc] at h
  simp at h
  omega

theorem mem_windowVals {g : Grid} {size : Nat} {origin : Int} {i j : Nat} {v : Int} :
    v ∈ windowVals g size origin i j ↔
      ∃ a ∈ windowIdxs size origin i, ∃ b ∈ windowIdxs size origin j,
        v = gget g (reflectIdx (nrows g) a) (reflectIdx (ncols g) b) :=
  mem_window_join

theorem sum_pos_iff_exists (l : List Rat) (h : ∀ x ∈ l, 0 ≤ x) :
    0 < l.sum ↔ ∃ x ∈ l, 0 < x := by
  induction l with
  | nil => simp
  | cons a t ih =>
    have ha := h a (List.mem_cons_self a t)
    have ht : ∀ x ∈ t, 0 ≤ x := fun x hx => h x (List.mem_cons_of_mem a hx)
    have hts : 0 ≤ t.sum := List.sum_nonneg ht
    rw [List.sum_cons]
    constructor
    · intro hpos
      by_cases h0 : 0 < a
      · exact ⟨a, List.mem_cons_self a t, h0⟩
      · have h1 : 0 < t.sum := by
          rcases lt_or_ge 0 a with hx | hx
          · exact absurd hx h0
          · linarith
        rcases (ih ht).1 h1 with ⟨x, hx, hx0⟩
        exact ⟨x, List.mem_cons_of_mem a hx, hx0⟩
    · rintro ⟨x, hx, hx0⟩
      rcases List.mem_cons.1 hx with rfl | hx
      · linarith
      · have := (ih ht).2 ⟨x, hx, hx0⟩
        linarith

theorem sum_le_length (l : List Rat) (h : ∀ x ∈ l, x ≤ 1) :
    l.sum ≤ (l.length : Rat) := by
  induction l with
  | nil => simp
  | cons a t ih =>
    have ha := h a (List.mem_cons_self a t)
    have ht := ih (fun x hx => h x (List.mem_cons_of_mem a hx))
    rw [List.sum_cons, List.length_cons]
    push_cast
    linarith

theorem sum_eq_length_iff (l : List Rat) (h : ∀ x ∈ l, x ≤ 1) :
    l.sum = (l.length : Rat) ↔ ∀ x ∈ l, x = 1 := by
  induction l with
  | nil => simp
  | cons a t ih =>
    have ha := h a (List.mem_cons_self a t)
    have ht : ∀ x ∈ t, x ≤ 1 := fun x hx => h x (List.mem_cons_of_mem a hx)
    have hts := sum_le_length t ht
    rw [List.sum_cons, List.length_cons]
    constructor
    · intro he
      have h1 : a = 1 ∧ t.sum = (t.length : Rat) := by
        push_cast at he
        constructor <;> linarith
      intro x hx
      rcases List.mem_cons.1 hx with rfl | hx
      · exact h1.1
      · exact (ih ht).1 h1.2 x hx
    · intro hall
      have h1 : a = 1 := hall a (List.mem_cons_self a t)
      have h2 : t.sum = (t.length : Rat) :=
        (ih ht).2 (fun x hx => hall x (List.mem_cons_of_mem a hx))
      rw [h1, h2]
      push_cast
      ring

theorem reflectIdx_self_nat {n : Nat} {a : Int} (h0 : 0 ≤ a) (h : a < (n : Int)) :
    reflectIdx n a = a.toNat := by
  have h1 := reflectIdx_self h0 h
  omega

/-- In-range entries of a rectangular binary grid are 0 or 1. -/
theorem gget_binary {g : Grid} (hwf : wellformed g)
    (hb : ∀ row ∈ g, ∀ x ∈ row, x = 0 ∨ x = 1)
    {i j : Nat} (hi : i < nrows g) (hj : j < ncols g) :
    gget g i j = 0 ∨ gget g i j = 1 := by
  have h1 : g[i]? = some g[i] := List.getElem?_eq_getElem hi
  have hrow : g.getD i [] = g[i] := by
    rw [List.getD_eq_getElem?_getD, h1]; rfl
  have hrmem : g[i] ∈ g := List.getElem_mem hi
  have hlen : (g[i]).length = ncols g := hwf _ hrmem
  have hj2 : j < (g[i]).length := by omega
  have h2 : (g[i])[j]? = some ((g[i])[j]) := List.getElem?_eq_getElem hj2
  have hval : gget g i j = (g[i])[j] := by
    rw [gget, getD2, hrow, List.getD_eq_getElem?_getD, h2]; rfl
  rw [hval]
  exact hb _ hrmem _ (List.getElem_mem hj2)

theorem padVal_nonneg {g : Grid} (hwf : wellformed g)
    (hb : ∀ row ∈ g, ∀ x ∈ row, x = 0 ∨ x = 1) (a b : Int) :
    0 ≤ padVal g 0 a b := by
  unfold padVal
  split
  · next h =>
    rcases h with ⟨h1, h2, h3, h4⟩
    rcases @gget_binary g hwf hb a.toNat b.toNat (by omega) (by omega)
      with h5 | h5 <;> rw [h5] <;> norm_num
  · exact le_refl 0

theorem padVal_le_one {g : Grid} (hwf : wellformed g)
    (hb : ∀ row ∈ g, ∀ x ∈ row, x = 0 ∨ x = 1) (a b : Int) :
    padVal g 1 a b ≤ 1 := by
  unfold padVal
  split
  · next h =>
    rcases h with ⟨h1, h2, h3, h4⟩
    rcases @gget_binary g hwf hb a.toNat b.toNat (by omega) (by omega)
      with h5 | h5 <;> rw [h5] <;> norm_num
  · exact le_refl 1

theorem padVal_pos_iff {g : Grid} (hwf : wellformed g)
    (hb : ∀ row ∈ g, ∀ x ∈ row, x = 0 ∨ x = 1) (a b : Int) :
    0 < padVal g 0 a b ↔
      ((0 ≤ a ∧ a < (nrows g : Int) ∧ 0 ≤ b ∧ b < (ncols g : Int)) ∧
        gget g a.toNat b.toNat = 1) := by
  unfold padVal
  split
  · next h =>
    obtain ⟨h1, h2, h3, h4⟩ := h
    have hbin := @gget_binary g hwf hb a.toNat b.toNat (by omega) (by omega)
    constructor
    · intro hpos
      refine ⟨⟨h1, h2, h3, h4⟩, ?_⟩
      rcases hbin with h5 | h5
      · rw [h5] at hpos; norm_num at hpos
      · exact h5
    · rintro ⟨_, h5⟩
      rw [h5]; norm_num
  · next h =>
    constructor
    · intro hpos; norm_num at hpos
    · rintro ⟨hc, _⟩; exact absurd hc h

theorem padVal_one_iff {g : Grid} (hwf : wellformed g)
    (hb : ∀ row ∈ g, ∀ x ∈ row, x = 0 ∨ x = 1) (a b : Int) :
    padVal g 1 a b = 1 ↔
      ((0 ≤ a ∧ a < (nrows g : Int) ∧ 0 ≤ b ∧ b < (ncols g : Int)) →
        gget g a.toNat b.toNat = 1) := by
  unfold padVal
  split
  · next h =>
    obtain ⟨h1, h2, h3, h4⟩ := h
    have hbin := @gget_binary g hwf hb a.toNat b.toNat (by omega) (by omega)
    constructor
    · intro he _
      rcases hbin with h5 | h5
      · rw [h5] at he; norm_num at he
      · exact h5
    · intro himp
      rw [himp ⟨h1, h2, h3, h4⟩]; norm_num
  · next h =>
    constructor
    · intro _ hc; exact absurd hc h
    · intro _; rfl

theorem windowSum_pos_iff {g : Grid} {s : Nat} {i j : Nat}
    (hwf : wellformed g) (hb : ∀ row ∈ g, ∀ x ∈ row, x = 0 ∨ x = 1) :
    0 < windowSum g 0 s 0 i j ↔
      ∃ a ∈ windowIdxs s 0 i, ∃ b ∈ windowIdxs s 0 j,
        (0 ≤ a ∧ a < (nrows g : Int) ∧ 0 ≤ b ∧ b < (ncols g : Int)) ∧
          gget g a.toNat b.toNat = 1 := by
  unfold windowSum
  rw [sum_pos_iff_exists]
  · constructor
    · rintro ⟨v, hv, hv0⟩
      rcases mem_window_join.1 hv with ⟨a, ha, b, hb2, rfl⟩
      exact ⟨a, ha, b, hb2, (padVal_pos_iff hwf hb a b).1 hv0⟩
    · rintro ⟨a, ha, b, hb2, hcond⟩
      exact ⟨padVal g 0 a b, mem_window_join.2 ⟨a, ha, b, hb2, rfl⟩,
        (padVal_pos_iff hwf hb a b).2 hcond⟩
  · intro x hx
    rcases mem_window_join.1 hx with ⟨a, _, b, _, rfl⟩
    exact padVal_nonneg hwf hb a b

theorem windowSum_full_iff {g : Grid} {s : Nat} {i j : Nat}
    (hwf : wellformed g) (hb : ∀ row ∈ g, ∀ x ∈ row, x = 0 ∨ x = 1) :
    windowSum g 1 s 0 i j = ((s * s : Nat) : Rat) ↔
      ∀ a ∈ windowIdxs s 0 i, ∀ b ∈ windowIdxs s 0 j,
        (0 ≤ a ∧ a < (nrows g : Int) ∧ 0 ≤ b ∧ b < (ncols g : Int)) →
          gget g a.toNat b.toNat = 1 := by
  unfold windowSum
  have hle : ∀ x ∈ ((windowIdxs s 0 i).map (fun a =>
      (windowIdxs s 0 j).map (fun b => padVal g 1 a b))).join, x ≤ 1 := by
    intro x hx
    rcases mem_window_join.1 hx with ⟨a, _, b, _, rfl⟩
    exact padVal_le_one hwf hb a b
  have h1 := sum_eq_length_iff _ hle
  rw [length_window_join] at h1
  rw [h1]
  constructor
  · intro hall a ha b hb2 hbounds
    exact (padVal_one_iff hwf hb a b).1
      (hall _ (mem_window_join.2 ⟨a, ha, b, hb2, rfl⟩)) hbounds
  · intro hall x hx
    rcases mem_window_join.1 hx with ⟨a, ha, b, hb2, rfl⟩
    exact (padVal_one_iff hwf hb a b).2 (hall a ha b hb2)

/-- Window membership at origin 0, phrased as the bounds used by the
reflection lemma. -/
theorem mem_windowIdxs_zero {size : Nat} {i : Nat} {x : Int} :
    x ∈ windowIdxs size 0 i ↔
      (i : Int) - (size / 2 : Nat) ≤ x ∧
        x ≤ (i : Int) - (size / 2 : Nat) + size - 1 := by
  rw [mem_windowIdxs]
  omega

theorem rb_dilation_pointwise (g : Grid) (s : Nat)
    (hwf : wellformed g) (hs : 0 < s)
    (hb : ∀ row ∈ g, ∀ x ∈ row, x = 0 ∨ x = 1) (i j : Nat)
    (hi : i < nrows g) (hj : j < ncols g) :
    (if 0 < windowSum g 0 s 0 i j / ((s * s : Nat) : Rat) then (1 : Int) else 0)
      = listMax (windowVals g s 0 i j) := by
  have hr : 0 < nrows g := by omega
  have hc : 0 < ncols g := by omega
  have hbv : ∀ v ∈ windowVals g s 0 i j, v = 0 ∨ v = 1 := by
    intro v hv
    rcases mem_windowVals.1 hv with ⟨a, _, b, _, rfl⟩
    exact gget_binary hwf hb (reflectIdx_lt hr a) (reflectIdx_lt hc b)
  rw [listMax_binary _ (windowVals_ne_nil hs) hbv]
  have hpos : (0 : Rat) < ((s * s : Nat) : Rat) := by
    have h0 : 0 < s * s := Nat.mul_pos hs hs
    exact_mod_cast h0
  refine if_congr ?_ rfl rfl
  have hdiv : (0 < windowSum g 0 s 0 i j / ((s * s : Nat) : Rat)) ↔
      0 < windowSum g 0 s 0 i j := by
    rw [div_pos_iff]
    constructor
    · rintro (⟨h1, _⟩ | ⟨_, h2⟩)
      · exact h1
      · linarith
    · intro h1; exact Or.inl ⟨h1, hpos⟩
  rw [hdiv, windowSum_pos_iff hwf hb]
  constructor
  · rintro ⟨a, ha, b, hbm, ⟨hb1, hb2, hb3, hb4⟩, hg⟩
    refine ⟨gget g a.toNat b.toNat, mem_windowVals.2 ⟨a, ha, b, hbm, ?_⟩, hg⟩
    rw [reflectIdx_self_nat hb1 hb2, reflectIdx_self_nat hb3 hb4]
  · rintro ⟨v, hv, hv1⟩
    rcases mem_windowVals.1 hv with ⟨a, ha, b, hbm, rfl⟩
    rcases mem_windowIdxs_zero.1 ha with ⟨ha1, ha2⟩
    rcases mem_windowIdxs_zero.1 hbm with ⟨hb1, hb2⟩
    have hca := reflectIdx_mem_window hr hs hi ha1 ha2
    have hcb := reflectIdx_mem_window hc hs hj hb1 hb2
    refine ⟨(reflectIdx (nrows g) a : Int), mem_windowIdxs_zero.2 ⟨hca.1, hca.2⟩,
      (reflectIdx (ncols g) b : Int), mem_windowIdxs_zero.2 ⟨hcb.1, hcb.2⟩,
      ⟨by positivity, by exact_mod_cast reflectIdx_lt hr a,
        by positivity, by exact_mod_cast reflectIdx_lt hc b⟩, ?_⟩
    simpa using hv1

theorem rb_erosion_pointwise (g : Grid) (s : Nat)
    (hwf : wellformed g) (hs : 0 < s)
    (hb : ∀ row ∈ g, ∀ x ∈ row, x = 0 ∨ x = 1) (i j : Nat)
    (hi : i < nrows g) (hj : j < ncols g) :
    (if windowSum g 1 s 0 i j / ((s * s : Nat) : Rat) = 1 then (1 : Int) else 0)
      = listMin (windowVals g s 0 i j) := by
  have hr : 0 < nrows g := by omega
  have hc : 0 < ncols g := by omega
  have hbv : ∀ v ∈ windowVals g s 0 i j, v = 0 ∨ v = 1 := by
    intro v hv
    rcases mem_windowVals.1 hv with ⟨a, _, b, _, rfl⟩
    exact gget_binary hwf hb (reflectIdx_lt hr a) (reflectIdx_lt hc b)
  rw [listMin_binary _ (windowVals_ne_nil hs) hbv]
  have hne : ((s * s : Nat) : Rat) ≠ 0 := by
    have h0 : 0 < s * s := Nat.mul_pos hs hs
    have h1 : (0 : Rat) < ((s * s : Nat) : Rat) := by exact_mod_cast h0
    exact ne_of_gt h1
  refine if_congr ?_ rfl rfl
  rw [div_eq_one_iff_eq hne, windowSum_full_iff hwf hb]
  constructor
  · intro hall v hv
    rcases mem_windowVals.1 hv with ⟨a, ha, b, hbm, rfl⟩
    rcases mem_windowIdxs_zero.1 ha with ⟨ha1, ha2⟩
    rcases mem_windowIdxs_zero.1 hbm with ⟨hb1, hb2⟩
    have hca := reflectIdx_mem_window hr hs hi ha1 ha2
    have hcb := reflectIdx_mem_window hc hs hj hb1 hb2
    have h2 := hall (reflectIdx (nrows g) a : Int)
      (mem_windowIdxs_zero.2 ⟨hca.1, hca.2⟩) (reflectIdx (ncols g) b : Int)
      (mem_windowIdxs_zero.2 ⟨hcb.1, hcb.2⟩)
      ⟨by positivity, by exact_mod_cast reflectIdx_lt hr a,
        by positivity, by exact_mod_cast reflectIdx_lt hc b⟩
    simpa using h2
  · intro hall a ha b hbm ⟨hb1, hb2, hb3, hb4⟩
    have h2 := hall (gget g a.toNat b.toNat) (mem_windowVals.2 ⟨a, ha, b, hbm, ?_⟩)
    · exact h2
    · rw [reflectIdx_self_nat hb1 hb2, reflectIdx_self_nat hb3 hb4]

/-! ## C7: the claim, its counterexample, and the origin-0 equivalence -/

/-- **C7 (counterexample).** The claim asserts the equality for every
origin.  On the binary image `[[0, 1]]` with size 3 and origin `1`
(valid for SciPy), the masks differ at pixel `(0,0)`: `rb_dilation`
(constant padding with 0) yields 0 there while `r_dilation`
(reflect-mode maximum filter) yields 1 — boundary reflection pulls the
1 into a window that constant padding does not. -/
theorem rb_r_dilation_origin_cex :
    gget (rb_dilation ⟨Dtype.uint8, [[0, 1]]⟩ 3 1).data 0 0 = 0 ∧
    gget (r_dilation ⟨Dtype.uint8, [[0, 1]]⟩ 3 1).data 0 0 = 1 := by
  constructor
  · rw [rb_dilation_data, gget_mkGrid _ (by decide) (by decide)]
    have h0 : windowSum (⟨Dtype.uint8, [[0, 1]]⟩ : NpArray).data 0 3 1 0 0 = 0 := by
      norm_num [windowSum, windowIdxs, padVal, nrows, ncols, gget, getD2,
        List.range_succ]
    rw [h0]
    norm_num
  · decide

/-- **C7 (amended).** For every binary 0/1 image and size, at the
default `origin = 0` the uniform-filter implementations agree with the
min/max-filter implementations as 0/1 masks: `rb_dilation` equals
`r_dilation` and `rb_erosion` equals `r_erosion` entrywise. -/
theorem rb_matches_r_at_origin_zero (image : NpArray) (size : Nat)
    (hwf : wellformed image.data) (hs : 0 < size)
    (hb : ∀ row ∈ image.data, ∀ x ∈ row, x = 0 ∨ x = 1) :
    (rb_dilation image size 0).data = (r_dilation image size 0).data ∧
    (rb_erosion image size 0).data = (r_erosion image size 0).data := by
  constructor
  · rw [rb_dilation_data]
    show _ = maximum_filter image.data size 0
    unfold maximum_filter
    exact mkGrid_congr (fun i hi j hj =>
      rb_dilation_pointwise image.data size hwf hs hb i j hi hj)
  · rw [rb_erosion_data]
    show _ = minimum_filter image.data size 0
    unfold minimum_filter
    exact mkGrid_congr (fun i hi j hj =>
      rb_erosion_pointwise image.data size hwf hs hb i j hi hj)

/-- Witness for C7 on the binary image `[[0,1],[1,0]]` with size 2. -/
theorem rb_matches_r_at_origin_zero_witness :
    (rb_dilation ⟨Dtype.uint8, [[0, 1], [1, 0]]⟩ 2 0).data =
      (r_dilation ⟨Dtype.uint8, [[0, 1], [1, 0]]⟩ 2 0).data ∧
    (rb_erosion ⟨Dtype.uint8, [[0, 1], [1, 0]]⟩ 2 0).data =
      (r_erosion ⟨Dtype.uint8, [[0, 1], [1, 0]]⟩ 2 0).data :=
  rb_matches_r_at_origin_zero ⟨Dtype.uint8, [[0, 1], [1, 0]]⟩ 2
    (by decide) (by decide) (by decide)

/-! ## Connected-component labeling (SciPy `measurements.label`)

`measurements.label` is not part of this repository; it is modelled
from its documented semantics: with the default 2D structuring element
(4-connectivity), connected components of the nonzero pixels receive
the labels `1..n` in raster order of first encounter, and zero pixels
stay 0.  The model is a raster scan with a fuelled breadth-first flood
fill over a flattened label array. -/

/-- Flattened index of pixel `(i, j)` in a `c`-column grid. -/
def idx (c i j : Nat) : Nat := i * c + j

/-- 4-neighbourhood of a pixel. -/
def nbrs (p : Nat × Nat) : List (Nat × Nat) :=
  [(p.1 + 1, p.2), (p.1, p.2 + 1)] ++
    (if 0 < p.1 then [(p.1 - 1, p.2)] else []) ++
    (if 0 < p.2 then [(p.1, p.2 - 1)] else [])

/-- Fuelled BFS flood fill: pop a pixel, mark its unlabelled nonzero
in-bounds neighbours with `cur` and enqueue them. -/
def bfs (g : Grid) (r c cur : Nat) : Nat → List (Nat × Nat) → List Nat → List Nat
  | 0, _, lab => lab
  | _ + 1, [], lab => lab
  | fuel + 1, p :: queue, lab =>
    let ns := (nbrs p).filter (fun s =>
      decide (s.1 < r) && decide (s.2 < c) && decide (gget g s.1 s.2 ≠ 0) &&
        decide (lab.getD (idx c s.1 s.2) 0 = 0))
    bfs g r c cur fuel (queue ++ ns)
      (ns.foldl (fun l s => l.set (idx c s.1 s.2) cur) lab)

/-- All pixels of an `r × c` grid in raster order. -/
def allPix (r c : Nat) : List (Nat × Nat) :=
  ((List.range r).map (fun i => (List.range c).map (fun j => (i, j)))).join

/-- One raster-scan step: a nonzero unlabelled pixel seeds a new
component. -/
def labelStep (g : Grid) (r c : Nat) (st : List Nat × Nat) (p : Nat × Nat) :
    List Nat × Nat :=
  if gget g p.1 p.2 ≠ 0 ∧ st.1.getD (idx c p.1 p.2) 0 = 0 then
    (bfs g r c st.2 (r * c) [p] (st.1.set (idx c p.1 p.2) st.2), st.2 + 1)
  else st

/-- Modelled from the spec: `scipy.ndimage.measurements.label` on a 2D
grid; returns the flattened label array and the number of components. -/
def measurementsLabel (g : Grid) : List Nat × Nat :=
  let r := nrows g
  let c := ncols g
  let st := (allPix r c).foldl (labelStep g r c) (List.replicate (r * c) 0, 1)
  (st.1, st.2 - 1)

theorem mem_allPix {r c : Nat} {p : Nat × Nat} :
    p ∈ allPix r c ↔ p.1 < r ∧ p.2 < c := by
  unfold allPix
  rw [List.mem_join]
  constructor
  · rintro ⟨L, hL, hp⟩
    rcases List.mem_map.1 hL with ⟨i, hi, rfl⟩
    rcases List.mem_map.1 hp with ⟨j, hj, rfl⟩
    exact ⟨List.mem_range.1 hi, List.mem_range.1 hj⟩
  · rintro ⟨h1, h2⟩
    refine ⟨(List.range c).map (fun j => (p.1, j)), List.mem_map.2 ⟨p.1, List.mem_range.2 h1, rfl⟩, ?_⟩
    exact List.mem_map.2 ⟨p.2, List.mem_range.2 h2, by simp⟩

theorem length_foldl_set {α : Type} (l : List (Nat × Nat)) (acc : List α)
    (f : Nat × Nat → Nat) (v : α) :
    (l.foldl (fun a s => a.set (f s) v) acc).length = acc.length := by
  induction l generalizing acc with
  | nil => rfl
  | cons s t ih => rw [List.foldl_cons, ih, List.length_set]

theorem length_bfs (g : Grid) (r c cur : Nat) :
    ∀ (fuel : Nat) (queue : List (Nat × Nat)) (lab : List Nat),
      (bfs g r c cur fuel queue lab).length = lab.length := by
  intro fuel
  induction fuel with
  | zero => intro queue lab; rfl
  | succ fuel ih =>
    intro queue lab
    rcases queue with _ | ⟨p, queue⟩
    · rfl
    · rw [bfs, ih]
      exact length_foldl_set _ _ _ _

theorem length_labelFold (g : Grid) (r c : Nat) (l : List (Nat × Nat))
    (st : List Nat × Nat) :
    (l.foldl (labelStep g r c) st).1.length = st.1.length := by
  induction l generalizing st with
  | nil => rfl
  | cons p t ih =>
    rw [List.foldl_cons, ih]
    unfold labelStep
    split
    · simp [length_bfs, List.length_set]
    · rfl

theorem length_measurementsLabel (g : Grid) :
    (measurementsLabel g).1.length = nrows g * ncols g := by
  unfold measurementsLabel
  rw [length_labelFold]
  exact List.length_replicate _ _

theorem getD_set_ne_g {α : Type} (l : List α) {i k : Nat} (v d : α) (h : i ≠ k) :
    (l.set i v).getD k d = l.getD k d := by
  rw [List.getD_eq_getElem?_getD, List.getElem?_set_ne h, ← List.getD_eq_getElem?_getD]

theorem getD_set_self_g {α : Type} (l : List α) {i : Nat} (v d : α) (h : i < l.length) :
    (l.set i v).getD i d = v := by
  rw [List.getD_eq_getElem?_getD, List.getElem?_set_eq h]; rfl

theorem idx_inj {c i j i2 j2 : Nat} (hj : j < c) (hj2 : j2 < c)
    (h : idx c i j = idx c i2 j2) : i = i2 ∧ j = j2 := by
  unfold idx at h
  have hi : i = i2 := by
    by_contra hne
    rcases Nat.lt_or_ge i i2 with h2 | h2
    · have hle : (i + 1) * c ≤ i2 * c := Nat.mul_le_mul_right c h2
      have hx : (i + 1) * c = i * c + c := by ring
      linarith
    · have h3 : i2 < i := by omega
      have hle : (i2 + 1) * c ≤ i * c := Nat.mul_le_mul_right c h3
      have hx : (i2 + 1) * c = i2 * c + c := by ring
      linarith
  subst hi
  exact ⟨rfl, Nat.add_left_cancel h⟩

/-- Zero pixels carry label 0: the invariant preserved by the fill. -/
def ZeroInv (g : Grid) (c : Nat) (lab : List Nat) : Prop :=
  ∀ i j, j < c → gget g i j = 0 → lab.getD (idx c i j) 0 = 0

theorem zeroInv_set {g : Grid} {c : Nat} {lab : List Nat} {s : Nat × Nat} {v : Nat}
    (hs : s.2 < c) (hnz : gget g s.1 s.2 ≠ 0) (hinv : ZeroInv g c lab) :
    ZeroInv g c (lab.set (idx c s.1 s.2) v) := by
  intro i j hj h0
  by_cases he : idx c s.1 s.2 = idx c i j
  · rcases idx_inj hs hj he with ⟨rfl, rfl⟩
    exact absurd h0 hnz
  · rw [getD_set_ne_g _ _ _ he]
    exact hinv i j hj h0

theorem zeroInv_foldl_set {g : Grid} {c : Nat} (ns : List (Nat × Nat)) {v : Nat}
    (h : ∀ s ∈ ns, s.2 < c ∧ gget g s.1 s.2 ≠ 0) {lab : List Nat}
    (hinv : ZeroInv g c lab) :
    ZeroInv g c (ns.foldl (fun l s => l.set (idx c s.1 s.2) v) lab) := by
  induction ns generalizing lab with
  | nil => exact hinv
  | cons s t ih =>
    rw [List.foldl_cons]
    exact ih (fun x hx => h x (List.mem_cons_of_mem s hx))
      (zeroInv_set (h s (List.mem_cons_self s t)).1 (h s (List.mem_cons_self s t)).2 hinv)

theorem zeroInv_bfs (g : Grid) (r c cur : Nat) :
    ∀ (fuel : Nat) (queue : List (Nat × Nat)) (lab : List Nat),
      ZeroInv g c lab → ZeroInv g c (bfs g r c cur fuel queue lab) := by
  intro fuel
  induction fuel with
  | zero => intro queue lab h; exact h
  | succ fuel ih =>
    intro queue lab h
    rcases queue with _ | ⟨p, queue⟩
    · exact h
    · rw [bfs]
      refine ih _ _ (zeroInv_foldl_set _ ?_ h)
      intro s hs
      rcases List.mem_filter.1 hs with ⟨_, hcond⟩
      simp only [Bool.and_eq_true, decide_eq_true_eq] at hcond
      exact ⟨hcond.1.1.2, hcond.1.2⟩

theorem zeroInv_labelFold (g : Grid) (r c : Nat) (l : List (Nat × Nat))
    (hl : ∀ p ∈ l, p.2 < c) (st : List Nat × Nat) (hst : ZeroInv g c st.1) :
    ZeroInv g c (l.foldl (labelStep g r c) st).1 := by
  induction l generalizing st with
  | nil => exact hst
  | cons p t ih =>
    rw [List.foldl_cons]
    refine ih (fun x hx => hl x (List.mem_cons_of_mem p hx)) _ ?_
    unfold labelStep
    split
    · next hcond =>
      exact zeroInv_bfs g r c st.2 _ _ _
        (zeroInv_set (hl p (List.mem_cons_self p t)) hcond.1 hst)
    · exact hst

theorem measurementsLabel_zero (g : Grid) {i j : Nat} (hj : j < ncols g)
    (h0 : gget g i j = 0) :
    (measurementsLabel g).1.getD (idx (ncols g) i j) 0 = 0 := by
  unfold measurementsLabel
  refine zeroInv_labelFold g (nrows g) (ncols g) _
    (fun p hp => (mem_allPix.1 hp).2) _ ?_ i j hj h0
  intro i2 j2 _ _
  rw [List.getD_eq_getElem?_getD, List.getElem?_replicate]
  split <;> rfl

theorem idx_lt {r c i j : Nat} (hi : i < r) (hj : j < c) : idx c i j < r * c := by
  have hle : (i + 1) * c ≤ r * c := Nat.mul_le_mul_right c hi
  have hx : (i + 1) * c = i * c + c := by ring
  unfold idx
  linarith

theorem getD_set_nonzero (lab : List Nat) (m k : Nat) (v : Nat) (hv : v ≠ 0)
    (h : lab.getD k 0 ≠ 0) : (lab.set m v).getD k 0 ≠ 0 := by
  by_cases he : m = k
  · subst he
    by_cases hlen : m < lab.length
    · rw [getD_set_self_g _ _ _ hlen]; exact hv
    · have h0 : lab.getD m 0 = 0 := by
        rw [List.getD_eq_getElem?_getD, List.getElem?_eq_none (by omega)]; rfl
      exact absurd h0 h
  · rw [getD_set_ne_g _ _ _ he]; exact h

theorem foldl_set_nonzero (ns : List (Nat × Nat)) (c v : Nat) (hv : v ≠ 0)
    (lab : List Nat) (k : Nat) (h : lab.getD k 0 ≠ 0) :
    (ns.foldl (fun l s => l.set (idx c s.1 s.2) v) lab).getD k 0 ≠ 0 := by
  induction ns generalizing lab with
  | nil => exact h
  | cons s t ih =>
    rw [List.foldl_cons]
    exact ih _ (getD_set_nonzero _ _ _ _ hv h)

theorem bfs_nonzero (g : Grid) (r c cur : Nat) (hcur : cur ≠ 0) :
    ∀ (fuel : Nat) (queue : List (Nat × Nat)) (lab : List Nat) (k : Nat),
      lab.getD k 0 ≠ 0 → (bfs g r c cur fuel queue lab).getD k 0 ≠ 0 := by
  intro fuel
  induction fuel with
  | zero => intro _ _ _ h; exact h
  | succ fuel ih =>
    intro queue lab k h
    rcases queue with _ | ⟨p, queue⟩
    · exact h
    · rw [bfs]
      exact ih _ _ _ (foldl_set_nonzero _ _ _ hcur _ _ h)

theorem labelStep_snd_ge (g : Grid) (r c : Nat) (st : List Nat × Nat)
    (p : Nat × Nat) : st.2 ≤ (labelStep g r c st p).2 := by
  unfold labelStep
  split
  · exact Nat.le_succ _
  · exact le_refl _

theorem labelFold_snd_ge (g : Grid) (r c : Nat) (l : List (Nat × Nat))
    (st : List Nat × Nat) : st.2 ≤ (l.foldl (labelStep g r c) st).2 := by
  induction l generalizing st with
  | nil => exact le_refl _
  | cons p t ih =>
    rw [List.foldl_cons]
    exact le_trans (labelStep_snd_ge g r c st p) (ih _)

theorem labelFold_nonzero (g : Grid) (r c : Nat) (l : List (Nat × Nat))
    (st : List Nat × Nat) (h1 : 1 ≤ st.2) (k : Nat) (h : st.1.getD k 0 ≠ 0) :
    (l.foldl (labelStep g r c) st).1.getD k 0 ≠ 0 := by
  induction l generalizing st with
  | nil => exact h
  | cons p t ih =>
    rw [List.foldl_cons]
    refine ih _ (le_trans h1 (labelStep_snd_ge g r c st p)) ?_
    unfold labelStep
    split
    · exact bfs_nonzero g r c st.2 (by omega) _ _ _ _
        (getD_set_nonzero _ _ _ _ (by omega) h)
    · exact h

theorem labelStep_establishes (g : Grid) (r c : Nat) (st : List Nat × Nat)
    (p : Nat × Nat) (hp1 : p.1 < r) (hp2 : p.2 < c)
    (hlen : st.1.length = r * c) (h1 : 1 ≤ st.2) (hnz : gget g p.1 p.2 ≠ 0) :
    (labelStep g r c st p).1.getD (idx c p.1 p.2) 0 ≠ 0 := by
  unfold labelStep
  split
  · refine bfs_nonzero g r c st.2 (by omega) _ _ _ _ ?_
    rw [getD_set_self_g _ _ _ (by rw [hlen]; exact idx_lt hp1 hp2)]
    omega
  · next hcond =>
    push_neg at hcond
    exact hcond hnz

theorem measurementsLabel_nonzero (g : Grid) {i j : Nat} (hi : i < nrows g)
    (hj : j < ncols g) (hnz : gget g i j ≠ 0) :
    (measurementsLabel g).1.getD (idx (ncols g) i j) 0 ≠ 0 := by
  show ((allPix (nrows g) (ncols g)).foldl (labelStep g (nrows g) (ncols g))
      (List.replicate (nrows g * ncols g) 0, 1)).1.getD (idx (ncols g) i j) 0 ≠ 0
  have hmem : ((i, j) : Nat × Nat) ∈ allPix (nrows g) (ncols g) :=
    mem_allPix.2 ⟨hi, hj⟩
  rcases List.append_of_mem hmem with ⟨l1, l2, hsplit⟩
  rw [hsplit, List.foldl_append, List.foldl_cons]
  have hlen1 : (l1.foldl (labelStep g (nrows g) (ncols g))
      (List.replicate (nrows g * ncols g) 0, 1)).1.length = nrows g * ncols g := by
    rw [length_labelFold]
    exact List.length_replicate _ _
  have hge1 : 1 ≤ (l1.foldl (labelStep g (nrows g) (ncols g))
      (List.replicate (nrows g * ncols g) 0, 1)).2 :=
    labelFold_snd_ge g (nrows g) (ncols g) l1
      (List.replicate (nrows g * ncols g) 0, 1)
  refine labelFold_nonzero g (nrows g) (ncols g) l2 _
    (le_trans hge1 (labelStep_snd_ge _ _ _ _ _)) _ ?_
  exact labelStep_establishes g (nrows g) (ncols g) _ (i, j) hi hj hlen1 hge1 hnz

/-- `np.amax` over a flattened array of natural labels. -/
def amaxNat (l : List Nat) : Nat := l.foldl max 0

theorem le_foldl_max_nat (l : List Nat) (x : Nat) : x ≤ l.foldl max x := by
  induction l generalizing x with
  | nil => exact le_refl _
  | cons a t ih => exact le_trans (le_max_left x a) (ih (max x a))

theorem mem_le_foldl_max_nat (l : List Nat) (x : Nat) :
    ∀ y ∈ l, y ≤ l.foldl max x := by
  induction l generalizing x with
  | nil => simp
  | cons a t ih =>
    intro y hy
    rcases List.mem_cons.1 hy with rfl | hy
    · exact le_trans (le_max_right x y) (le_foldl_max_nat t (max x y))
    · exact ih (max x a) y hy

theorem getD_le_amaxNat (l : List Nat) (k : Nat) : l.getD k 0 ≤ amaxNat l := by
  by_cases hk : k < l.length
  · have h1 : l[k]? = some l[k] := List.getElem?_eq_getElem hk
    have h2 : l.getD k 0 = l[k] := by rw [List.getD_eq_getElem?_getD, h1]; rfl
    rw [h2]
    exact mem_le_foldl_max_nat l 0 _ (List.getElem_mem hk)
  · rw [List.getD_eq_getElem?_getD, List.getElem?_eq_none (by omega)]
    exact Nat.zero_le _

theorem getD_eq_getElem {α : Type} (l : List α) (k : Nat) (d : α)
    (h : k < l.length) : l.getD k d = l[k] := by
  rw [List.getD_eq_getElem?_getD, List.getElem?_eq_getElem h]; rfl

theorem getD_mem {α : Type} (l : List α) (k : Nat) (d : α)
    (h : k < l.length) : l.getD k d ∈ l := by
  rw [getD_eq_getElem l k d h]
  exact List.getElem_mem h

/-! ## `correspondences` (lines 146-155) -/

def sortInts (l : List Int) : List Int := l.mergeSort (fun a b => decide (a ≤ b))

/-- `np.unique`: the sorted distinct values of an array. -/
def npUnique (l : List Int) : List Int := (sortInts l).dedup

/-- The packed-value computation of `morph.correspondences`:
`combo = labels1 * 100000 + labels2` elementwise, `np.unique`, then the
two rows `result // 100000` and `result % 100000`, here represented as
the list of the columns of the 2-row result. -/
def correspondencesCore (labels1 labels2 : List Int) : List (Int × Int) :=
  (npUnique (List.zipWith (fun a b => a * 100000 + b) labels1 labels2)).map
    (fun v => (v / 100000, v % 100000))

/-- `morph.correspondences`: the two `assert` statements, then the
packed-unique-unpack computation; `none` models `AssertionError`. -/
def correspondences (labels1 labels2 : List Int) : Option (List (Int × Int)) :=
  if 0 ≤ amin labels1 ∧ 0 ≤ amin labels2 ∧ amax labels2 < 100000 then
    some (correspondencesCore labels1 labels2)
  else none

theorem mem_npUnique {l : List Int} {v : Int} : v ∈ npUnique l ↔ v ∈ l := by
  unfold npUnique sortInts
  rw [List.mem_dedup]
  exact (List.mergeSort_perm l _).mem_iff

theorem sorted_npUnique (l : List Int) : List.Sorted (· < ·) (npUnique l) := by
  have hs : List.Sorted (· ≤ ·) (sortInts l) := by
    have h1 := @List.sorted_mergeSort Int (fun a b : Int => decide (a ≤ b))
      (by intro a b c hab hbc; simp only [decide_eq_true_eq] at *; omega)
      (by intro a b; simp only [Bool.or_eq_true, decide_eq_true_eq]; omega) l
    exact h1.imp (by intro a b h; simpa using h)
  have hd : List.Sorted (· ≤ ·) (npUnique l) :=
    hs.sublist (List.dedup_sublist _)
  exact hd.lt_of_le (List.nodup_dedup _)

theorem unpack_pack (a b : Int) (hb0 : 0 ≤ b) (hb : b < 100000) :
    (a * 100000 + b) / 100000 = a ∧ (a * 100000 + b) % 100000 = b := by
  constructor
  · rw [add_comm, Int.add_mul_ediv_right _ _ (by norm_num : (100000 : Int) ≠ 0),
      Int.ediv_eq_zero_of_lt hb0 hb]
    omega
  · rw [add_comm, Int.add_mul_emod_self]
    exact Int.emod_eq_of_lt hb0 hb

theorem pack_unpack (v : Int) : (v / 100000) * 100000 + v % 100000 = v := by
  have h := Int.ediv_add_emod v 100000
  linarith

theorem mem_zipWith_pack {l1 l2 : List Int} {v : Int} :
    v ∈ List.zipWith (fun a b => a * 100000 + b) l1 l2 ↔
      ∃ k, k < l1.length ∧ k < l2.length ∧
        v = l1.getD k 0 * 100000 + l2.getD k 0 := by
  rw [List.mem_iff_getElem]
  constructor
  · rintro ⟨k, hk, hv⟩
    have hk2 := hk
    rw [List.length_zipWith] at hk2
    refine ⟨k, by omega, by omega, ?_⟩
    rw [List.getElem_zipWith] at hv
    rw [getD_eq_getElem _ _ _ (by omega), getD_eq_getElem _ _ _ (by omega)]
    exact hv.symm
  · rintro ⟨k, hk1, hk2, rfl⟩
    refine ⟨k, by rw [List.length_zipWith]; omega, ?_⟩
    rw [List.getElem_zipWith, getD_eq_getElem _ _ _ hk1, getD_eq_getElem _ _ _ hk2]

theorem amin_neg_iff (l : List Int) (hne : l ≠ []) :
    amin l < 0 ↔ ∃ x ∈ l, x < 0 := by
  constructor
  · intro h
    exact ⟨amin l, listMin_mem l hne, h⟩
  · rintro ⟨x, hx, hx0⟩
    exact lt_of_le_of_lt (foldl_min_le_mem l _ x hx) hx0

theorem amax_ge_iff (l : List Int) (hne : l ≠ []) (t : Int) :
    t ≤ amax l ↔ ∃ x ∈ l, t ≤ x := by
  constructor
  · intro h
    exact ⟨amax l, listMax_mem l hne, h⟩
  · rintro ⟨x, hx, hx0⟩
    exact le_trans hx0 (mem_le_foldl_max l _ x hx)

/-- **C4.** Under the assertions' preconditions, `correspondences`
returns exactly the distinct pairs `(a, b)` occurring at a common pixel
of the two label arrays, each exactly once, in strictly ascending order
of the packed value `a*100000 + b`; and on nonempty inputs it raises
`AssertionError` exactly when some label is negative or
`max(labels2) >= 100000`. -/
theorem correspondences_spec (labels1 labels2 : List Int)
    (hlen : labels1.length = labels2.length) (hne : labels1 ≠ [])
    (h1 : ∀ x ∈ labels1, 0 ≤ x) (h2 : ∀ x ∈ labels2, 0 ≤ x ∧ x < 100000) :
    (∃ res, correspondences labels1 labels2 = some res ∧
      (∀ p : Int × Int, p ∈ res ↔ ∃ k, k < labels1.length ∧
          labels1.getD k 0 = p.1 ∧ labels2.getD k 0 = p.2) ∧
      res.Nodup ∧
      List.Sorted (fun p s : Int × Int =>
        p.1 * 100000 + p.2 < s.1 * 100000 + s.2) res) ∧
    (∀ m1 m2 : List Int, m1 ≠ [] → m2 ≠ [] →
      (correspondences m1 m2 = none ↔
        ((∃ x ∈ m1, x < 0) ∨ (∃ x ∈ m2, x < 0) ∨ (∃ x ∈ m2, 100000 ≤ x)))) := by
  constructor
  · have hne2 : labels2 ≠ [] := by
      intro hc
      rw [hc] at hlen
      simp at hlen
      exact hne hlen
    have hcheck : 0 ≤ amin labels1 ∧ 0 ≤ amin labels2 ∧ amax labels2 < 100000 := by
      refine ⟨?_, ?_, ?_⟩
      · exact h1 _ (listMin_mem _ hne)
      · exact (h2 _ (listMin_mem _ hne2)).1
      · exact (h2 _ (listMax_mem _ hne2)).2
    refine ⟨correspondencesCore labels1 labels2, by
      unfold correspondences
      rw [if_pos hcheck], ?_, ?_, ?_⟩
    · intro p
      unfold correspondencesCore
      rw [List.mem_map]
      constructor
      · rintro ⟨v, hv, rfl⟩
        rcases mem_zipWith_pack.1 (mem_npUnique.1 hv) with ⟨k, hk1, hk2, rfl⟩
        have ha := h1 _ (getD_mem labels1 k 0 hk1)
        have hb := h2 _ (getD_mem labels2 k 0 hk2)
        rcases unpack_pack (labels1.getD k 0) (labels2.getD k 0) hb.1 hb.2
          with ⟨hu1, hu2⟩
        exact ⟨k, hk1, by rw [hu1], by rw [hu2]⟩
      · rintro ⟨k, hk, hp1, hp2⟩
        have hb := h2 _ (getD_mem labels2 k 0 (by omega))
        refine ⟨labels1.getD k 0 * 100000 + labels2.getD k 0,
          mem_npUnique.2 (mem_zipWith_pack.2 ⟨k, hk, by omega, rfl⟩), ?_⟩
        rcases unpack_pack (labels1.getD k 0) (labels2.getD k 0) hb.1 hb.2
          with ⟨hu1, hu2⟩
        rw [hu1, hu2, hp1, hp2]
    · unfold correspondencesCore
      have hsort := sorted_npUnique
        (List.zipWith (fun a b => a * 100000 + b) labels1 labels2)
      have hp : List.Pairwise (fun v w : Int =>
          (v / 100000) * 100000 + v % 100000 < (w / 100000) * 100000 + w % 100000)
          (npUnique (List.zipWith (fun a b => a * 100000 + b) labels1 labels2)) := by
        refine hsort.imp ?_
        intro v w h
        rw [pack_unpack, pack_unpack]
        exact h
      have hnd : List.Pairwise (fun v w : Int =>
          ((v / 100000, v % 100000) : Int × Int) ≠ (w / 100000, w % 100000))
          (npUnique (List.zipWith (fun a b => a * 100000 + b) labels1 labels2)) := by
        refine hsort.imp ?_
        intro v w h he
        have hv1 : v / 100000 = w / 100000 := congrArg Prod.fst he
        have hv2 : v % 100000 = w % 100000 := congrArg Prod.snd he
        have hpv := pack_unpack v
        have hpw := pack_unpack w
        rw [hv1, hv2] at hpv
        omega
      exact (List.pairwise_map).2 hnd
    · unfold correspondencesCore
      have hsort := sorted_npUnique
        (List.zipWith (fun a b => a * 100000 + b) labels1 labels2)
      have hp : List.Pairwise (fun v w : Int =>
          (v / 100000) * 100000 + v % 100000 < (w / 100000) * 100000 + w % 100000)
          (npUnique (List.zipWith (fun a b => a * 100000 + b) labels1 labels2)) := by
        refine hsort.imp ?_
        intro v w h
        rw [pack_unpack, pack_unpack]
        exact h
      exact (List.pairwise_map).2 hp
  · intro m1 m2 hm1 hm2
    unfold correspondences
    constructor
    · intro hnone
      by_cases hcheck : 0 ≤ amin m1 ∧ 0 ≤ amin m2 ∧ amax m2 < 100000
      · rw [if_pos hcheck] at hnone
        exact absurd hnone (by simp)
      · push_neg at hcheck
        by_cases hc1 : 0 ≤ amin m1
        · by_cases hc2 : 0 ≤ amin m2
          · exact Or.inr (Or.inr ((amax_ge_iff m2 hm2 100000).1 (hcheck hc1 hc2)))
          · exact Or.inr (Or.inl ((amin_neg_iff m2 hm2).1 (by omega)))
        · exact Or.inl ((amin_neg_iff m1 hm1).1 (by omega))
    · intro hbad
      rw [if_neg]
      rintro ⟨hc1, hc2, hc3⟩
      rcases hbad with h | h | h
      · rcases (amin_neg_iff m1 hm1).2 h with h4
        omega
      · rcases (amin_neg_iff m2 hm2).2 h with h4
        omega
      · rcases (amax_ge_iff m2 hm2 100000).2 h with h4
        omega

/-- Witness for C4 on `labels1 = [0,2,0]`, `labels2 = [1,3,1]`. -/
theorem correspondences_spec_witness :
    ∃ res, correspondences [0, 2, 0] [1, 3, 1] = some res ∧
      (∀ p : Int × Int, p ∈ res ↔ ∃ k, k < ([0, 2, 0] : List Int).length ∧
          ([0, 2, 0] : List Int).getD k 0 = p.1 ∧
          ([1, 3, 1] : List Int).getD k 0 = p.2) ∧
      res.Nodup ∧
      List.Sorted (fun p s : Int × Int =>
        p.1 * 100000 + p.2 < s.1 * 100000 + s.2) res :=
  (correspondences_spec [0, 2, 0] [1, 3, 1] (by decide) (by decide)
    (by decide) (by decide)).1

/-! ## `propagate_labels_simple` and `propagate_labels` (lines 158-185) -/

/-- The sentinel `-(1 << 30)` used by `propagate_labels` for conflicts. -/
def oops : Int := -(2 ^ 30)

/-- `morph.propagate_labels_simple`: label the regions, compute
correspondences against the reference labels, and fill an output table
(last write wins), zeroing entry 0. -/
def propagate_labels_simple (regions labels : Grid) : Option Grid :=
  let r := nrows regions
  let c := ncols regions
  let rlabels := (measurementsLabel regions).1
  match correspondences (rlabels.map (fun (k : Nat) => (k : Int))) labels.join with
  | none => none
  | some cors =>
    let outputs0 : List Int := List.replicate (amaxNat rlabels + 1) 0
    let outputs1 := cors.foldl (fun out pr => out.set pr.1.toNat pr.2) outputs0
    let outputs2 := outputs1.set 0 0
    some (mkGrid r c (fun i j => outputs2.getD (rlabels.getD (idx c i j) 0) 0))

/-- `morph.propagate_labels`: as above, but a second write to an entry
stores the sentinel, later replaced by `conflict`. -/
def propagate_labels (image labels : Grid) (conflict : Int) : Option Grid :=
  let r := nrows image
  let c := ncols image
  let rlabels := (measurementsLabel image).1
  match correspondences (rlabels.map (fun (k : Nat) => (k : Int))) labels.join with
  | none => none
  | some cors =>
    let outputs0 : List Int := List.replicate (amaxNat rlabels + 1) 0
    let outputs1 := cors.foldl (fun out pr =>
      if out.getD pr.1.toNat 0 ≠ 0 then out.set pr.1.toNat oops
      else out.set pr.1.toNat pr.2) outputs0
    let outputs2 := outputs1.map (fun x => if x = oops then conflict else x)
    let outputs3 := outputs2.set 0 0
    some (mkGrid r c (fun i j => outputs3.getD (rlabels.getD (idx c i j) 0) 0))

theorem join_cons {α : Type} (a : List α) (L : List (List α)) :
    (a :: L).join = a ++ L.join := rfl

theorem length_join_wf {α : Type} {g : List (List α)} {c : Nat}
    (hc : ∀ row ∈ g, row.length = c) : g.join.length = g.length * c := by
  induction g with
  | nil => simp
  | cons row t ih =>
    rw [join_cons, List.length_append, List.length_cons,
      hc row (List.mem_cons_self row t),
      ih (fun x hx => hc x (List.mem_cons_of_mem row hx))]
    ring

theorem join_getD {g : Grid} {c : Nat} (hc : ∀ row ∈ g, row.length = c) :
    ∀ {i j : Nat}, j < c → i < g.length →
      g.join.getD (idx c i j) 0 = gget g i j := by
  induction g with
  | nil => intro i j _ hi; simp at hi
  | cons row t ih =>
    intro i j hj hi
    rcases i with _ | i
    · have hrow : row.length = c := hc row (List.mem_cons_self row t)
      have hidx0 : idx c 0 j = j := by simp [idx]
      rw [join_cons, hidx0]
      have h1 : (row ++ t.join)[j]? = row[j]? := by
        rw [List.getElem?_append, if_pos (by omega)]
      rw [List.getD_eq_getElem?_getD, h1]
      show row[j]?.getD 0 = row.getD j 0
      rw [List.getD_eq_getElem?_getD]
    · have hrow : row.length = c := hc row (List.mem_cons_self row t)
      rw [join_cons]
      have hidx : idx c (i + 1) j = row.length + idx c i j := by
        rw [hrow]; unfold idx; ring
      have h1 : (row ++ t.join)[idx c (i + 1) j]? = t.join[idx c i j]? := by
        rw [List.getElem?_append, if_neg (by omega)]
        congr 1
        omega
      rw [List.getD_eq_getElem?_getD, h1, ← List.getD_eq_getElem?_getD]
      exact ih (fun x hx => hc x (List.mem_cons_of_mem row hx)) hj (by simpa using hi)

theorem getD_map_cast (l : List Nat) (k : Nat) :
    (l.map (fun (x : Nat) => (x : Int))).getD k 0 = (l.getD k 0 : Int) := by
  by_cases hk : k < l.length
  · rw [getD_eq_getElem _ _ _ (by simpa using hk), getD_eq_getElem _ _ _ hk,
      List.getElem_map]
  · rw [List.getD_eq_getElem?_getD, List.getElem?_eq_none (by simpa using hk),
      List.getD_eq_getElem?_getD, List.getElem?_eq_none (by omega)]
    rfl

theorem getD_map_if (l : List Int) (f : Int → Int) (k : Nat) (hk : k < l.length) :
    (l.map f).getD k 0 = f (l.getD k 0) := by
  rw [getD_eq_getElem _ _ _ (by simpa using hk), getD_eq_getElem _ _ _ hk,
    List.getElem_map]

theorem pack_inj {a b a2 b2 : Int} (hb0 : 0 ≤ b) (hb : b < 100000)
    (hb20 : 0 ≤ b2) (hb2 : b2 < 100000)
    (h : a * 100000 + b = a2 * 100000 + b2) : a = a2 ∧ b = b2 := by
  have h1 := unpack_pack a b hb0 hb
  have h2 := unpack_pack a2 b2 hb20 hb2
  rw [h] at h1
  exact ⟨by rw [← h1.1, h2.1], by rw [← h1.2, h2.2]⟩

/-- The generic single-cell view of an indexed-update fold: the final
table entry at `o` is the automaton `step` run over the seconds of the
pairs whose first component is `o`. -/
theorem foldl_set_filter (step : Int → Int → Int) (prs : List (Int × Int))
    (out : List Int) (o : Nat) (ho : o < out.length)
    (hnn : ∀ pr ∈ prs, 0 ≤ pr.1) :
    ((prs.foldl (fun acc pr =>
        acc.set pr.1.toNat (step (acc.getD pr.1.toNat 0) pr.2)) out).getD o 0)
      = ((prs.filter (fun pr => decide (pr.1 = (o : Int)))).map Prod.snd).foldl
          step (out.getD o 0) := by
  induction prs generalizing out with
  | nil => rfl
  | cons pr t ih =>
    rw [List.foldl_cons]
    have hnn2 : ∀ x ∈ t, 0 ≤ x.1 := fun x hx => hnn x (List.mem_cons_of_mem pr hx)
    have hlen : (out.set pr.1.toNat (step (out.getD pr.1.toNat 0) pr.2)).length
        = out.length := List.length_set _ _ _
    by_cases he : pr.1 = (o : Int)
    · have htn : pr.1.toNat = o := by omega
      rw [List.filter_cons_of_pos (by simp [he]), List.map_cons, List.foldl_cons]
      rw [ih _ (by omega) hnn2]
      congr 1
      rw [htn, getD_set_self_g _ _ _ (by omega)]
    · have htn : pr.1.toNat ≠ o := by
        have := hnn pr (List.mem_cons_self pr t)
        omega
      rw [List.filter_cons_of_neg (by simp [he])]
      rw [ih _ (by omega) hnn2]
      congr 1
      rw [getD_set_ne_g _ _ _ htn]

theorem length_foldl_set_filter (step : Int → Int → Int)
    (prs : List (Int × Int)) (out : List Int) :
    (prs.foldl (fun acc pr =>
        acc.set pr.1.toNat (step (acc.getD pr.1.toNat 0) pr.2)) out).length
      = out.length := by
  induction prs generalizing out with
  | nil => rfl
  | cons pr t ih => rw [List.foldl_cons, ih, List.length_set]

/-- The two update automata of the propagate functions. -/
def stepConflict (cur v : Int) : Int := if cur ≠ 0 then oops else v

def stepLast (cur v : Int) : Int := v

theorem propagate_fold_eq (prs : List (Int × Int)) (out : List Int) :
    prs.foldl (fun out pr =>
        if out.getD pr.1.toNat 0 ≠ 0 then out.set pr.1.toNat oops
        else out.set pr.1.toNat pr.2) out
      = prs.foldl (fun acc pr =>
          acc.set pr.1.toNat (stepConflict (acc.getD pr.1.toNat 0) pr.2)) out := by
  have hf : (fun (out : List Int) (pr : Int × Int) =>
      if out.getD pr.1.toNat 0 ≠ 0 then out.set pr.1.toNat oops
      else out.set pr.1.toNat pr.2)
      = (fun acc pr => acc.set pr.1.toNat (stepConflict (acc.getD pr.1.toNat 0) pr.2)) := by
    funext acc pr
    unfold stepConflict
    rcases eq_or_ne (acc.getD pr.1.toNat 0) 0 with h | h
    · rw [if_neg (fun hc => hc h), if_neg (fun hc => hc h)]
    · rw [if_pos h, if_pos h]
  rw [hf]

theorem simple_fold_eq (prs : List (Int × Int)) (out : List Int) :
    prs.foldl (fun out pr => out.set pr.1.toNat pr.2) out
      = prs.foldl (fun acc pr =>
          acc.set pr.1.toNat (stepLast (acc.getD pr.1.toNat 0) pr.2)) out := rfl

/-- The result of the conflict automaton on the (sorted, distinct)
value list of one component. -/
def conflictSpec : List Int → Int
  | [] => 0
  | [v] => v
  | _ :: _ :: _ => oops

theorem foldl_stepConflict_oops (L : List Int) :
    L.foldl stepConflict oops = oops := by
  induction L with
  | nil => rfl
  | cons a t ih =>
    rw [List.foldl_cons]
    have h : stepConflict oops a = oops := by
      unfold stepConflict oops
      rw [if_pos (by norm_num)]
    rw [h, ih]

theorem foldl_stepConflict_sorted (L : List Int) (hs : List.Sorted (· < ·) L)
    (hnn : ∀ x ∈ L, 0 ≤ x) :
    L.foldl stepConflict 0 = conflictSpec (L.filter (fun x => decide (x ≠ 0))) := by
  induction L with
  | nil => rfl
  | cons v t ih =>
    rw [List.foldl_cons]
    by_cases hv : v = 0
    · subst hv
      have h0 : stepConflict 0 0 = 0 := by unfold stepConflict; simp
      rw [h0, List.filter_cons_of_neg (by simp)]
      exact ih hs.of_cons (fun x hx => hnn x (List.mem_cons_of_mem _ hx))
    · have hstep : stepConflict 0 v = v := by unfold stepConflict; simp
      rw [hstep, List.filter_cons_of_pos (by simpa using hv)]
      have htnz : ∀ x ∈ t, x ≠ 0 := by
        intro x hx h0
        have h1 : v < x := (List.sorted_cons.1 hs).1 x hx
        have h2 := hnn v (List.mem_cons_self v t)
        omega
      have hft : t.filter (fun x => decide (x ≠ 0)) = t := by
        rw [List.filter_eq_self]
        intro x hx
        simpa using htnz x hx
      rw [hft]
      rcases t with _ | ⟨w, t2⟩
      · rfl
      · rw [List.foldl_cons]
        have hw : stepConflict v w = oops := by
          unfold stepConflict
          rw [if_pos hv]
        rw [hw, foldl_stepConflict_oops]
        rfl

theorem foldl_stepLast (L : List Int) (x : Int) :
    L.foldl stepLast x = L.getLastD x := by
  induction L generalizing x with
  | nil => rfl
  | cons a t ih =>
    rw [List.foldl_cons]
    have h : stepLast x a = a := rfl
    rw [h, ih]
    rcases t with _ | _ <;> rfl

theorem getLastD_mem (L : List Int) (hne : L ≠ []) (x : Int) :
    L.getLastD x ∈ L := by
  induction L generalizing x with
  | nil => exact absurd rfl hne
  | cons a t ih =>
    rcases t with _ | ⟨b, t2⟩
    · simp
    · exact List.mem_cons_of_mem a (ih (by simp) a)

theorem sorted_le_getLastD (L : List Int) (hs : List.Sorted (· < ·) L) (x : Int) :
    ∀ y ∈ L, y ≤ L.getLastD x := by
  induction L generalizing x with
  | nil => simp
  | cons a t ih =>
    intro y hy
    rcases List.mem_cons.1 hy with rfl | hy
    · rcases t with _ | ⟨b, t2⟩
      · simp
      · have hmem := getLastD_mem (b :: t2) (by simp) x
        have h1 : y < (b :: t2).getLastD x := (List.sorted_cons.1 hs).1 _ hmem
        exact le_of_lt (by simpa using h1)
    · rcases t with _ | ⟨b, t2⟩
      · simp at hy
      · have := ih hs.of_cons x y hy
        simpa using this

theorem filter_singleton_of_unique {P : List Int} (hnd : P.Nodup) (v : Int)
    (hv : v ∈ P) (hall : ∀ x ∈ P, x = v) : P = [v] := by
  rcases P with _ | ⟨a, t⟩
  · simp at hv
  · have ha : a = v := hall a (List.mem_cons_self a t)
    subst ha
    rcases t with _ | ⟨b, t2⟩
    · rfl
    · have hb : b = a := hall b (List.mem_cons_of_mem a (List.mem_cons_self b t2))
      subst hb
      exact absurd (List.mem_cons_self b t2) (List.nodup_cons.1 hnd).1

theorem conflictSpec_two {P : List Int} (v w : Int) (hv : v ∈ P) (hw : w ∈ P)
    (hvw : v ≠ w) : conflictSpec P = oops := by
  rcases P with _ | ⟨a, t⟩
  · simp at hv
  · rcases t with _ | ⟨b, t2⟩
    · simp at hv hw
      exact absurd (hv.trans hw.symm) hvw
    · rfl

theorem getD_replicate_zero (n k : Nat) :
    (List.replicate n (0 : Int)).getD k 0 = 0 := by
  rw [List.getD_eq_getElem?_getD, List.getElem?_replicate]
  split <;> rfl

theorem mem_correspondencesCore {l1 l2 : List Int}
    (h1 : ∀ x ∈ l1, 0 ≤ x) (h2 : ∀ x ∈ l2, 0 ≤ x ∧ x < 100000) {p : Int × Int} :
    p ∈ correspondencesCore l1 l2 ↔
      ∃ k, k < l1.length ∧ k < l2.length ∧
        l1.getD k 0 = p.1 ∧ l2.getD k 0 = p.2 := by
  unfold correspondencesCore
  rw [List.mem_map]
  constructor
  · rintro ⟨v, hv, rfl⟩
    rcases mem_zipWith_pack.1 (mem_npUnique.1 hv) with ⟨k, hk1, hk2, rfl⟩
    have hb := h2 _ (getD_mem l2 k 0 hk2)
    rcases unpack_pack (l1.getD k 0) (l2.getD k 0) hb.1 hb.2 with ⟨hu1, hu2⟩
    exact ⟨k, hk1, hk2, by rw [hu1], by rw [hu2]⟩
  · rintro ⟨k, hk1, hk2, hp1, hp2⟩
    have hb := h2 _ (getD_mem l2 k 0 hk2)
    refine ⟨l1.getD k 0 * 100000 + l2.getD k 0,
      mem_npUnique.2 (mem_zipWith_pack.2 ⟨k, hk1, hk2, rfl⟩), ?_⟩
    rcases unpack_pack (l1.getD k 0) (l2.getD k 0) hb.1 hb.2 with ⟨hu1, hu2⟩
    rw [hu1, hu2, hp1, hp2]

theorem pairwise_correspondencesCore (l1 l2 : List Int) :
    List.Pairwise (fun p s : Int × Int =>
      p.1 * 100000 + p.2 < s.1 * 100000 + s.2) (correspondencesCore l1 l2) := by
  unfold correspondencesCore
  have hsort := sorted_npUnique (List.zipWith (fun a b => a * 100000 + b) l1 l2)
  have hp : List.Pairwise (fun v w : Int =>
      (v / 100000) * 100000 + v % 100000 < (w / 100000) * 100000 + w % 100000)
      (npUnique (List.zipWith (fun a b => a * 100000 + b) l1 l2)) := by
    refine hsort.imp ?_
    intro v w h
    rw [pack_unpack, pack_unpack]
    exact h
  exact (List.pairwise_map).2 hp

/-- The ascending list of distinct reference-label values seen by the
pixels of the region-label class `o`: the seconds of the correspondence
pairs whose first component is `o`. -/
def componentSeconds (image labels : Grid) (o : Nat) : List Int :=
  ((correspondencesCore
      ((measurementsLabel image).1.map (fun (k : Nat) => (k : Int)))
      labels.join).filter (fun pr => decide (pr.1 = (o : Int)))).map Prod.snd

theorem seconds_spec (image labels : Grid) (hwfL : wellformed labels)
    (hr : nrows labels = nrows image) (hc : ncols labels = ncols image)
    (hlv : ∀ row ∈ labels, ∀ x ∈ row, 0 ≤ x ∧ x < 100000) (o : Nat) :
    List.Sorted (· < ·) (componentSeconds image labels o) ∧
    (∀ x ∈ componentSeconds image labels o, 0 ≤ x ∧ x < 100000) ∧
    (∀ b : Int, b ∈ componentSeconds image labels o ↔
      ∃ i2 j2, i2 < nrows image ∧ j2 < ncols image ∧
        (measurementsLabel image).1.getD (idx (ncols image) i2 j2) 0 = o ∧
        gget labels i2 j2 = b) := by
  set rlab := (measurementsLabel image).1 with hrlab
  set l1 : List Int := rlab.map (fun (k : Nat) => (k : Int)) with hl1
  have h1 : ∀ x ∈ l1, 0 ≤ x := by
    intro x hx
    rcases List.mem_map.1 hx with ⟨k, _, rfl⟩
    positivity
  have h2 : ∀ x ∈ labels.join, 0 ≤ x ∧ x < 100000 := by
    intro x hx
    rcases List.mem_join.1 hx with ⟨row, hrow, hxr⟩
    exact hlv row hrow x hxr
  have hrows : ∀ row ∈ labels, row.length = ncols image := by
    intro row hrow
    rw [← hc]
    exact hwfL row hrow
  have hl1len : l1.length = nrows image * ncols image := by
    rw [hl1, List.length_map, hrlab, length_measurementsLabel]
  have hjoinlen : labels.join.length = nrows image * ncols image := by
    rw [length_join_wf hrows]
    have : labels.length = nrows image := hr
    rw [this]
  refine ⟨?_, ?_, ?_⟩
  · -- sorted
    have hpair := pairwise_correspondencesCore l1 labels.join
    have hfil := hpair.filter (fun pr => decide (pr.1 = (o : Int)))
    unfold componentSeconds
    refine (List.pairwise_map).2 ?_
    refine List.Pairwise.imp_of_mem ?_ hfil
    intro p s hp hs hlt
    have hp1 : p.1 = (o : Int) := by simpa using (List.mem_filter.1 hp).2
    have hs1 : s.1 = (o : Int) := by simpa using (List.mem_filter.1 hs).2
    rw [hp1, hs1] at hlt
    omega
  · -- value bounds
    intro x hx
    unfold componentSeconds at hx
    rcases List.mem_map.1 hx with ⟨pr, hpr, rfl⟩
    have hmem := (List.mem_filter.1 hpr).1
    rcases (mem_correspondencesCore h1 h2).1 hmem with ⟨k, hk1, hk2, _, hsnd⟩
    rw [← hsnd]
    exact h2 _ (getD_mem labels.join k 0 hk2)
  · -- membership
    intro b
    unfold componentSeconds
    constructor
    · intro hb
      rcases List.mem_map.1 hb with ⟨pr, hpr, rfl⟩
      rcases List.mem_filter.1 hpr with ⟨hmem, hfst⟩
      have hfst2 : pr.1 = (o : Int) := by simpa using hfst
      rcases (mem_correspondencesCore h1 h2).1 hmem with ⟨k, hk1, hk2, hl1k, hl2k⟩
      rw [hl1len] at hk1
      have hcpos : 0 < ncols image := by
        rcases Nat.eq_zero_or_pos (ncols image) with h0 | h0
        · rw [h0] at hk1; omega
        · exact h0
      have hidx : idx (ncols image) (k / ncols image) (k % ncols image) = k := by
        unfold idx
        rw [Nat.mul_comm]
        exact Nat.div_add_mod k (ncols image)
      have hdiv : k / ncols image < nrows image :=
        (Nat.div_lt_iff_lt_mul hcpos).2 hk1
      refine ⟨k / ncols image, k % ncols image, hdiv, Nat.mod_lt _ hcpos, ?_, ?_⟩
      · rw [hidx]
        have hx := hl1k
        rw [hl1, getD_map_cast] at hx
        rw [hfst2] at hx
        exact_mod_cast hx
      · rw [← hl2k]
        have hjg := join_getD hrows (Nat.mod_lt k hcpos)
          (show k / ncols image < labels.length by
            show k / ncols image < labels.length
            have hlen2 : labels.length = nrows image := hr
            rw [hlen2]
            exact hdiv)
        rw [hidx] at hjg
        exact hjg.symm
    · rintro ⟨i2, j2, hi2, hj2, ho, hb⟩
      refine List.mem_map.2 ⟨((o : Int), b), ?_, rfl⟩
      refine List.mem_filter.2 ⟨?_, by simp⟩
      refine (mem_correspondencesCore h1 h2).2
        ⟨idx (ncols image) i2 j2, ?_, ?_, ?_, ?_⟩
      · rw [hl1len]
        exact idx_lt hi2 hj2
      · rw [hjoinlen]
        exact idx_lt hi2 hj2
      · rw [hl1, getD_map_cast, ho]
      · rw [← hb]
        refine join_getD hrows hj2 ?_
        have hlen2 : labels.length = nrows image := hr
        rw [hlen2]
        exact hi2

/-- **C3.** For every image and same-shaped nonnegative label array with
values below 100000, `propagate_labels` assigns to every pixel of a
connected component (a class of the region labeling) the unique nonzero
reference label it overlaps if there is exactly one, the value
`conflict` if it overlaps two or more distinct nonzero labels, and 0 if
it overlaps none; background pixels of the image are 0 in the output. -/
theorem propagate_labels_spec (image labels : Grid) (conflict : Int)
    (hwfI : wellformed image) (hwfL : wellformed labels)
    (hr : nrows labels = nrows image) (hc : ncols labels = ncols image)
    (hpos : 0 < nrows image) (hcpos : 0 < ncols image)
    (hlv : ∀ row ∈ labels, ∀ x ∈ row, 0 ≤ x ∧ x < 100000) :
    ∃ out, propagate_labels image labels conflict = some out ∧
      ∀ i j, i < nrows image → j < ncols image →
        ((gget image i j = 0 → gget out i j = 0) ∧
         (gget image i j ≠ 0 →
           (((∀ i2 j2, i2 < nrows image → j2 < ncols image →
               (measurementsLabel image).1.getD (idx (ncols image) i2 j2) 0 =
                 (measurementsLabel image).1.getD (idx (ncols image) i j) 0 →
               gget labels i2 j2 = 0) → gget out i j = 0) ∧
            (∀ v : Int, v ≠ 0 →
              (∃ i2 j2, i2 < nrows image ∧ j2 < ncols image ∧
                (measurementsLabel image).1.getD (idx (ncols image) i2 j2) 0 =
                  (measurementsLabel image).1.getD (idx (ncols image) i j) 0 ∧
                gget labels i2 j2 = v) →
              (∀ i2 j2, i2 < nrows image → j2 < ncols image →
                (measurementsLabel image).1.getD (idx (ncols image) i2 j2) 0 =
                  (measurementsLabel image).1.getD (idx (ncols image) i j) 0 →
                gget labels i2 j2 = 0 ∨ gget labels i2 j2 = v) →
              gget out i j = v) ∧
            (∀ v w : Int, v ≠ 0 → w ≠ 0 → v ≠ w →
              (∃ i2 j2, i2 < nrows image ∧ j2 < ncols image ∧
                (measurementsLabel image).1.getD (idx (ncols image) i2 j2) 0 =
                  (measurementsLabel image).1.getD (idx (ncols image) i j) 0 ∧
                gget labels i2 j2 = v) →
              (∃ i2 j2, i2 < nrows image ∧ j2 < ncols image ∧
                (measurementsLabel image).1.getD (idx (ncols image) i2 j2) 0 =
                  (measurementsLabel image).1.getD (idx (ncols image) i j) 0 ∧
                gget labels i2 j2 = w) →
              gget out i j = conflict)))) := by
  set rlab := (measurementsLabel image).1 with hrlab
  set l1 := rlab.map (fun (k : Nat) => (k : Int)) with hl1
  set cors := correspondencesCore l1 labels.join with hcors0
  set outputs0 := List.replicate (amaxNat rlab + 1) (0 : Int) with ho0
  set outputs1 := cors.foldl (fun out pr =>
    if out.getD pr.1.toNat 0 ≠ 0 then out.set pr.1.toNat oops
    else out.set pr.1.toNat pr.2) outputs0 with ho1
  set outputs2 := outputs1.map (fun x => if x = oops then conflict else x) with ho2
  set outputs3 := outputs2.set 0 0 with ho3
  have hrows : ∀ row ∈ labels, row.length = ncols image := fun row hrow => by
    rw [← hc]; exact hwfL row hrow
  have hl1len : l1.length = nrows image * ncols image := by
    rw [hl1, List.length_map, hrlab, length_measurementsLabel]
  have hjoinlen : labels.join.length = nrows image * ncols image := by
    rw [length_join_wf hrows]
    have h : labels.length = nrows image := hr
    rw [h]
  have hl1ne : l1 ≠ [] := by
    intro hnil
    rw [hnil] at hl1len
    simp at hl1len
    rcases hl1len with h | h <;> omega
  have hjoinne : labels.join ≠ [] := by
    intro hnil
    rw [hnil] at hjoinlen
    simp at hjoinlen
    rcases hjoinlen with h | h <;> omega
  have h1 : ∀ x ∈ l1, 0 ≤ x := by
    intro x hx
    rcases List.mem_map.1 hx with ⟨k, _, rfl⟩
    positivity
  have h2 : ∀ x ∈ labels.join, 0 ≤ x ∧ x < 100000 := by
    intro x hx
    rcases List.mem_join.1 hx with ⟨row, hrow, hxr⟩
    exact hlv row hrow x hxr
  have hchk : 0 ≤ amin l1 ∧ 0 ≤ amin labels.join ∧ amax labels.join < 100000 := by
    refine ⟨h1 _ (listMin_mem _ hl1ne), (h2 _ (listMin_mem _ hjoinne)).1,
      (h2 _ (listMax_mem _ hjoinne)).2⟩
  have hcors : correspondences l1 labels.join = some cors := by
    unfold correspondences
    rw [if_pos hchk, hcors0]
  have hnn : ∀ pr ∈ cors, 0 ≤ pr.1 := by
    intro pr hpr
    rcases (mem_correspondencesCore h1 h2).1 (hcors0 ▸ hpr) with ⟨k, hk1, _, hfst, _⟩
    rw [← hfst]
    exact h1 _ (getD_mem l1 k 0 hk1)
  have hred : propagate_labels image labels conflict =
      some (mkGrid (nrows image) (ncols image)
        (fun i j => outputs3.getD (rlab.getD (idx (ncols image) i j) 0) 0)) := by
    simp only [propagate_labels]
    rw [← hrlab, ← hl1, hcors]
  refine ⟨_, hred, ?_⟩
  intro i j hi hj
  have hout : gget (mkGrid (nrows image) (ncols image)
      (fun i j => outputs3.getD (rlab.getD (idx (ncols image) i j) 0) 0)) i j
      = outputs3.getD (rlab.getD (idx (ncols image) i j) 0) 0 :=
    gget_mkGrid _ hi hj
  have hlen1 : outputs1.length = amaxNat rlab + 1 := by
    rw [ho1, propagate_fold_eq, length_foldl_set_filter, ho0, List.length_replicate]
  have hlen2 : outputs2.length = amaxNat rlab + 1 := by
    rw [ho2, List.length_map, hlen1]
  constructor
  · intro h0
    have hz : rlab.getD (idx (ncols image) i j) 0 = 0 := by
      rw [hrlab]
      exact measurementsLabel_zero image hj h0
    rw [hout, hz, ho3, getD_set_self_g _ _ _ (by omega)]
  · intro hnz
    have honz : rlab.getD (idx (ncols image) i j) 0 ≠ 0 := by
      rw [hrlab]
      exact measurementsLabel_nonzero image hi hj hnz
    have holt : rlab.getD (idx (ncols image) i j) 0 < amaxNat rlab + 1 :=
      Nat.lt_succ_of_le (getD_le_amaxNat rlab _)
    have hstep3 : outputs3.getD (rlab.getD (idx (ncols image) i j) 0) 0
        = outputs2.getD (rlab.getD (idx (ncols image) i j) 0) 0 := by
      rw [ho3]
      exact getD_set_ne_g _ _ _ (fun h => honz h.symm)
    have hstep2 : outputs2.getD (rlab.getD (idx (ncols image) i j) 0) 0
        = (if outputs1.getD (rlab.getD (idx (ncols image) i j) 0) 0 = oops
           then conflict else outputs1.getD (rlab.getD (idx (ncols image) i j) 0) 0) := by
      rw [ho2]
      exact getD_map_if _ _ _ (by omega)
    have hcompsec : componentSeconds image labels (rlab.getD (idx (ncols image) i j) 0)
        = (cors.filter (fun pr =>
            decide (pr.1 = ((rlab.getD (idx (ncols image) i j) 0 : Nat) : Int)))).map
          Prod.snd := by
      unfold componentSeconds
      rw [← hrlab, ← hl1, ← hcors0]
    have hstep1 : outputs1.getD (rlab.getD (idx (ncols image) i j) 0) 0
        = (componentSeconds image labels
            (rlab.getD (idx (ncols image) i j) 0)).foldl stepConflict 0 := by
      rw [ho1, propagate_fold_eq,
        foldl_set_filter stepConflict cors outputs0 _
          (by rw [ho0, List.length_replicate]; exact holt) hnn,
        hcompsec, ho0, getD_replicate_zero]
    have hsec := seconds_spec image labels hwfL hr hc hlv
      (rlab.getD (idx (ncols image) i j) 0)
    rw [← hrlab] at hsec
    have hfold : outputs1.getD (rlab.getD (idx (ncols image) i j) 0) 0
        = conflictSpec ((componentSeconds image labels
            (rlab.getD (idx (ncols image) i j) 0)).filter
              (fun x => decide (x ≠ 0))) := by
      rw [hstep1, foldl_stepConflict_sorted _ hsec.1 (fun x hx => (hsec.2.1 x hx).1)]
    have hPmem : ∀ x : Int, x ∈ (componentSeconds image labels
        (rlab.getD (idx (ncols image) i j) 0)).filter (fun x => decide (x ≠ 0)) ↔
        (x ∈ componentSeconds image labels (rlab.getD (idx (ncols image) i j) 0)
          ∧ x ≠ 0) := by
      intro x
      rw [List.mem_filter]
      simp
    have hPnodup : ((componentSeconds image labels
        (rlab.getD (idx (ncols image) i j) 0)).filter
          (fun x => decide (x ≠ 0))).Nodup :=
      (hsec.1.imp (fun h => ne_of_lt h)).filter _
    refine ⟨?_, ?_, ?_⟩
    · intro hall
      have hPnil : (componentSeconds image labels
          (rlab.getD (idx (ncols image) i j) 0)).filter
            (fun x => decide (x ≠ 0)) = [] := by
        rw [List.eq_nil_iff_forall_not_mem]
        intro x hx
        rcases (hPmem x).1 hx with ⟨hcs, hx0⟩
        rcases (hsec.2.2 x).1 hcs with ⟨i2, j2, hi2, hj2, hrl, hval⟩
        exact hx0 (by rw [← hval]; exact hall i2 j2 hi2 hj2 hrl)
      rw [hout, hstep3, hstep2, hfold, hPnil]
      show (if conflictSpec [] = oops then conflict else conflictSpec []) = 0
      rw [if_neg (show conflictSpec [] ≠ oops by decide)]
      rfl
    · intro v hv hexists hall
      have hvCS : v ∈ componentSeconds image labels
          (rlab.getD (idx (ncols image) i j) 0) := by
        rcases hexists with ⟨i2, j2, hi2, hj2, hrl, hval⟩
        exact (hsec.2.2 v).2 ⟨i2, j2, hi2, hj2, hrl, hval⟩
      have hPv : v ∈ (componentSeconds image labels
          (rlab.getD (idx (ncols image) i j) 0)).filter
            (fun x => decide (x ≠ 0)) := (hPmem v).2 ⟨hvCS, hv⟩
      have hPall : ∀ x ∈ (componentSeconds image labels
          (rlab.getD (idx (ncols image) i j) 0)).filter
            (fun x => decide (x ≠ 0)), x = v := by
        intro x hx
        rcases (hPmem x).1 hx with ⟨hcs, hx0⟩
        rcases (hsec.2.2 x).1 hcs with ⟨i2, j2, hi2, hj2, hrl, hval⟩
        rcases hall i2 j2 hi2 hj2 hrl with h | h
        · exact absurd (hval.symm.trans h) hx0
        · exact hval.symm.trans h
      have hPv2 := filter_singleton_of_unique hPnodup v hPv hPall
      rw [hout, hstep3, hstep2, hfold, hPv2]
      show (if conflictSpec [v] = oops then conflict else conflictSpec [v]) = v
      have hvnn : 0 ≤ v := (hsec.2.1 v hvCS).1
      have hvoops : v ≠ oops := by
        intro he
        rw [he] at hvnn
        norm_num [oops] at hvnn
      rw [if_neg (show conflictSpec [v] ≠ oops from hvoops)]
      rfl
    · intro v w hv hw hvw hev hew
      have hvCS : v ∈ componentSeconds image labels
          (rlab.getD (idx (ncols image) i j) 0) := by
        rcases hev with ⟨i2, j2, hi2, hj2, hrl, hval⟩
        exact (hsec.2.2 v).2 ⟨i2, j2, hi2, hj2, hrl, hval⟩
      have hwCS : w ∈ componentSeconds image labels
          (rlab.getD (idx (ncols image) i j) 0) := by
        rcases hew with ⟨i2, j2, hi2, hj2, hrl, hval⟩
        exact (hsec.2.2 w).2 ⟨i2, j2, hi2, hj2, hrl, hval⟩
      have hPv : v ∈ (componentSeconds image labels
          (rlab.getD (idx (ncols image) i j) 0)).filter
            (fun x => decide (x ≠ 0)) := (hPmem v).2 ⟨hvCS, hv⟩
      have hPw : w ∈ (componentSeconds image labels
          (rlab.getD (idx (ncols image) i j) 0)).filter
            (fun x => decide (x ≠ 0)) := (hPmem w).2 ⟨hwCS, hw⟩
      have hsp := conflictSpec_two v w hPv hPw hvw
      rw [hout, hstep3, hstep2, hfold, hsp]
      show (if oops = oops then conflict else oops) = conflict
      rw [if_pos rfl]

/-- **C10.** `propagate_labels_simple` assigns to every connected
component (class of the region labeling) the numerically largest
reference-label value it overlaps — correspondence pairs are visited in
ascending packed order and the last assignment wins — 0 when it
overlaps only background, and background pixels stay 0. -/
theorem propagate_labels_simple_spec (regions labels : Grid)
    (hwfR : wellformed regions) (hwfL : wellformed labels)
    (hr : nrows labels = nrows regions) (hc : ncols labels = ncols regions)
    (hpos : 0 < nrows regions) (hcpos : 0 < ncols regions)
    (hlv : ∀ row ∈ labels, ∀ x ∈ row, 0 ≤ x ∧ x < 100000) :
    ∃ out, propagate_labels_simple regions labels = some out ∧
      ∀ i j, i < nrows regions → j < ncols regions →
        ((gget regions i j = 0 → gget out i j = 0) ∧
         (gget regions i j ≠ 0 →
           (∃ i2 j2, i2 < nrows regions ∧ j2 < ncols regions ∧
             (measurementsLabel regions).1.getD (idx (ncols regions) i2 j2) 0 =
               (measurementsLabel regions).1.getD (idx (ncols regions) i j) 0 ∧
             gget labels i2 j2 = gget out i j) ∧
           (∀ i2 j2, i2 < nrows regions → j2 < ncols regions →
             (measurementsLabel regions).1.getD (idx (ncols regions) i2 j2) 0 =
               (measurementsLabel regions).1.getD (idx (ncols regions) i j) 0 →
             gget labels i2 j2 ≤ gget out i j))) := by
  set rlab := (measurementsLabel regions).1 with hrlab
  set l1 := rlab.map (fun (k : Nat) => (k : Int)) with hl1
  set cors := correspondencesCore l1 labels.join with hcors0
  set outputs0 := List.replicate (amaxNat rlab + 1) (0 : Int) with ho0
  set outputs1 := cors.foldl (fun out pr => out.set pr.1.toNat pr.2) outputs0 with ho1
  set outputs2 := outputs1.set 0 0 with ho2
  have hrows : ∀ row ∈ labels, row.length = ncols regions := fun row hrow => by
    rw [← hc]; exact hwfL row hrow
  have hl1len : l1.length = nrows regions * ncols regions := by
    rw [hl1, List.length_map, hrlab, length_measurementsLabel]
  have hjoinlen : labels.join.length = nrows regions * ncols regions := by
    rw [length_join_wf hrows]
    have h : labels.length = nrows regions := hr
    rw [h]
  have hl1ne : l1 ≠ [] := by
    intro hnil
    rw [hnil] at hl1len
    simp at hl1len
    rcases hl1len with h | h <;> omega
  have hjoinne : labels.join ≠ [] := by
    intro hnil
    rw [hnil] at hjoinlen
    simp at hjoinlen
    rcases hjoinlen with h | h <;> omega
  have h1 : ∀ x ∈ l1, 0 ≤ x := by
    intro x hx
    rcases List.mem_map.1 hx with ⟨k, _, rfl⟩
    positivity
  have h2 : ∀ x ∈ labels.join, 0 ≤ x ∧ x < 100000 := by
    intro x hx
    rcases List.mem_join.1 hx with ⟨row, hrow, hxr⟩
    exact hlv row hrow x hxr
  have hchk : 0 ≤ amin l1 ∧ 0 ≤ amin labels.join ∧ amax labels.join < 100000 :=
    ⟨h1 _ (listMin_mem _ hl1ne), (h2 _ (listMin_mem _ hjoinne)).1,
      (h2 _ (listMax_mem _ hjoinne)).2⟩
  have hcors : correspondences l1 labels.join = some cors := by
    unfold correspondences
    rw [if_pos hchk, hcors0]
  have hnn : ∀ pr ∈ cors, 0 ≤ pr.1 := by
    intro pr hpr
    rcases (mem_correspondencesCore h1 h2).1 (hcors0 ▸ hpr) with ⟨k, hk1, _, hfst, _⟩
    rw [← hfst]
    exact h1 _ (getD_mem l1 k 0 hk1)
  have hred : propagate_labels_simple regions labels =
      some (mkGrid (nrows regions) (ncols regions)
        (fun i j => outputs2.getD (rlab.getD (idx (ncols regions) i j) 0) 0)) := by
    simp only [propagate_labels_simple]
    rw [← hrlab, ← hl1, hcors]
  refine ⟨_, hred, ?_⟩
  intro i j hi hj
  have hout : gget (mkGrid (nrows regions) (ncols regions)
      (fun i j => outputs2.getD (rlab.getD (idx (ncols regions) i j) 0) 0)) i j
      = outputs2.getD (rlab.getD (idx (ncols regions) i j) 0) 0 :=
    gget_mkGrid _ hi hj
  have hlen1 : outputs1.length = amaxNat rlab + 1 := by
    rw [ho1, simple_fold_eq, length_foldl_set_filter, ho0, List.length_replicate]
  constructor
  · intro h0
    have hz : rlab.getD (idx (ncols regions) i j) 0 = 0 := by
      rw [hrlab]
      exact measurementsLabel_zero regions hj h0
    rw [hout, hz, ho2, getD_set_self_g _ _ _ (by omega)]
  · intro hnz
    have honz : rlab.getD (idx (ncols regions) i j) 0 ≠ 0 := by
      rw [hrlab]
      exact measurementsLabel_nonzero regions hi hj hnz
    have holt : rlab.getD (idx (ncols regions) i j) 0 < amaxNat rlab + 1 :=
      Nat.lt_succ_of_le (getD_le_amaxNat rlab _)
    have hstep2 : outputs2.getD (rlab.getD (idx (ncols regions) i j) 0) 0
        = outputs1.getD (rlab.getD (idx (ncols regions) i j) 0) 0 := by
      rw [ho2]
      exact getD_set_ne_g _ _ _ (fun h => honz h.symm)
    have hcompsec : componentSeconds regions labels
        (rlab.getD (idx (ncols regions) i j) 0)
        = (cors.filter (fun pr =>
            decide (pr.1 = ((rlab.getD (idx (ncols regions) i j) 0 : Nat) : Int)))).map
          Prod.snd := by
      unfold componentSeconds
      rw [← hrlab, ← hl1, ← hcors0]
    have hstep1 : outputs1.getD (rlab.getD (idx (ncols regions) i j) 0) 0
        = (componentSeconds regions labels
            (rlab.getD (idx (ncols regions) i j) 0)).getLastD 0 := by
      rw [ho1, simple_fold_eq,
        foldl_set_filter stepLast cors outputs0 _
          (by rw [ho0, List.length_replicate]; exact holt) hnn,
        hcompsec, ho0, getD_replicate_zero, foldl_stepLast]
    have hsec := seconds_spec regions labels hwfL hr hc hlv
      (rlab.getD (idx (ncols regions) i j) 0)
    rw [← hrlab] at hsec
    have hself : gget labels i j ∈ componentSeconds regions labels
        (rlab.getD (idx (ncols regions) i j) 0) :=
      (hsec.2.2 _).2 ⟨i, j, hi, hj, rfl, rfl⟩
    have hne : componentSeconds regions labels
        (rlab.getD (idx (ncols regions) i j) 0) ≠ [] := by
      intro hnil
      rw [hnil] at hself
      simp at hself
    constructor
    · have hmem := getLastD_mem _ hne (0 : Int)
      rcases (hsec.2.2 _).1 hmem with ⟨i2, j2, hi2, hj2, hrl, hval⟩
      refine ⟨i2, j2, hi2, hj2, hrl, ?_⟩
      rw [hout, hstep2, hstep1, hval]
    · intro i2 j2 hi2 hj2 hrl
      have hmem2 : gget labels i2 j2 ∈ componentSeconds regions labels
          (rlab.getD (idx (ncols regions) i j) 0) :=
        (hsec.2.2 _).2 ⟨i2, j2, hi2, hj2, hrl, rfl⟩
      rw [hout, hstep2, hstep1]
      exact sorted_le_getLastD _ hsec.1 0 _ hmem2

/-- Witness for C3 on a 2×2 image with two components and labels 5, 7. -/
theorem propagate_labels_spec_witness :
    ∃ out, propagate_labels [[1, 0], [0, 1]] [[5, 0], [0, 7]] 99 = some out ∧
      ∀ i j, i < nrows [[1, 0], [0, 1]] → j < ncols [[1, 0], [0, 1]] →
        ((gget [[1, 0], [0, 1]] i j = 0 → gget out i j = 0) ∧
         (gget [[1, 0], [0, 1]] i j ≠ 0 →
           (((∀ i2 j2, i2 < nrows [[1, 0], [0, 1]] → j2 < ncols [[1, 0], [0, 1]] →
               (measurementsLabel [[1, 0], [0, 1]]).1.getD
                   (idx (ncols [[1, 0], [0, 1]]) i2 j2) 0 =
                 (measurementsLabel [[1, 0], [0, 1]]).1.getD
                   (idx (ncols [[1, 0], [0, 1]]) i j) 0 →
               gget [[5, 0], [0, 7]] i2 j2 = 0) → gget out i j = 0) ∧
            (∀ v : Int, v ≠ 0 →
              (∃ i2 j2, i2 < nrows [[1, 0], [0, 1]] ∧ j2 < ncols [[1, 0], [0, 1]] ∧
                (measurementsLabel [[1, 0], [0, 1]]).1.getD
                    (idx (ncols [[1, 0], [0, 1]]) i2 j2) 0 =
                  (measurementsLabel [[1, 0], [0, 1]]).1.getD
                    (idx (ncols [[1, 0], [0, 1]]) i j) 0 ∧
                gget [[5, 0], [0, 7]] i2 j2 = v) →
              (∀ i2 j2, i2 < nrows [[1, 0], [0, 1]] → j2 < ncols [[1, 0], [0, 1]] →
                (measurementsLabel [[1, 0], [0, 1]]).1.getD
                    (idx (ncols [[1, 0], [0, 1]]) i2 j2) 0 =
                  (measurementsLabel [[1, 0], [0, 1]]).1.getD
                    (idx (ncols [[1, 0], [0, 1]]) i j) 0 →
                gget [[5, 0], [0, 7]] i2 j2 = 0 ∨ gget [[5, 0], [0, 7]] i2 j2 = v) →
              gget out i j = v) ∧
            (∀ v w : Int, v ≠ 0 → w ≠ 0 → v ≠ w →
              (∃ i2 j2, i2 < nrows [[1, 0], [0, 1]] ∧ j2 < ncols [[1, 0], [0, 1]] ∧
                (measurementsLabel [[1, 0], [0, 1]]).1.getD
                    (idx (ncols [[1, 0], [0, 1]]) i2 j2) 0 =
                  (measurementsLabel [[1, 0], [0, 1]]).1.getD
                    (idx (ncols [[1, 0], [0, 1]]) i j) 0 ∧
                gget [[5, 0], [0, 7]] i2 j2 = v) →
              (∃ i2 j2, i2 < nrows [[1, 0], [0, 1]] ∧ j2 < ncols [[1, 0], [0, 1]] ∧
                (measurementsLabel [[1, 0], [0, 1]]).1.getD
                    (idx (ncols [[1, 0], [0, 1]]) i2 j2) 0 =
                  (measurementsLabel [[1, 0], [0, 1]]).1.getD
                    (idx (ncols [[1, 0], [0, 1]]) i j) 0 ∧
                gget [[5, 0], [0, 7]] i2 j2 = w) →
              gget out i j = 99)))) :=
  propagate_labels_spec [[1, 0], [0, 1]] [[5, 0], [0, 7]] 99 (by decide) (by decide)
    (by decide) (by decide) (by decide) (by decide) (by decide)

/-- Witness for C10 on the same 2×2 image and labels. -/
theorem propagate_labels_simple_spec_witness :
    ∃ out, propagate_labels_simple [[1, 0], [0, 1]] [[5, 0], [0, 7]] = some out ∧
      ∀ i j, i < nrows [[1, 0], [0, 1]] → j < ncols [[1, 0], [0, 1]] →
        ((gget [[1, 0], [0, 1]] i j = 0 → gget out i j = 0) ∧
         (gget [[1, 0], [0, 1]] i j ≠ 0 →
           (∃ i2 j2, i2 < nrows [[1, 0], [0, 1]] ∧ j2 < ncols [[1, 0], [0, 1]] ∧
             (measurementsLabel [[1, 0], [0, 1]]).1.getD
                 (idx (ncols [[1, 0], [0, 1]]) i2 j2) 0 =
               (measurementsLabel [[1, 0], [0, 1]]).1.getD
                 (idx (ncols [[1, 0], [0, 1]]) i j) 0 ∧
             gget [[5, 0], [0, 7]] i2 j2 = gget out i j) ∧
           (∀ i2 j2, i2 < nrows [[1, 0], [0, 1]] → j2 < ncols [[1, 0], [0, 1]] →
             (measurementsLabel [[1, 0], [0, 1]]).1.getD
                 (idx (ncols [[1, 0], [0, 1]]) i2 j2) 0 =
               (measurementsLabel [[1, 0], [0, 1]]).1.getD
                 (idx (ncols [[1, 0], [0, 1]]) i j) 0 →
             gget [[5, 0], [0, 7]] i2 j2 ≤ gget out i j))) :=
  propagate_labels_simple_spec [[1, 0], [0, 1]] [[5, 0], [0, 7]] (by decide)
    (by decide) (by decide) (by decide) (by decide) (by decide) (by decide)

/-! ## `spread_labels` (lines 135-143) -/

/-- Squared Euclidean distance between two pixels. -/
def sqd (p s : Nat × Nat) : Int :=
  ((p.1 : Int) - (s.1 : Int)) ^ 2 + ((p.2 : Int) - (s.2 : Int)) ^ 2

/-- One step of the nearest-nonzero scan: a nonzero pixel replaces the
candidate when strictly closer (raster order breaks ties). -/
def nearStep (g : Grid) (p : Nat × Nat) (acc : Option (Nat × Nat))
    (s : Nat × Nat) : Option (Nat × Nat) :=
  if gget g s.1 s.2 ≠ 0 then
    match acc with
    | none => some s
    | some s0 => if sqd p s < sqd p s0 then some s else acc
  else acc

/-- Modelled from the spec: the feature transform underlying
`morphology.distance_transform_edt(labels == 0, return_distances=1,
return_indices=1)` — for each pixel, an index of a nearest pixel where
the input `labels == 0` is zero, i.e. a nearest nonzero pixel of
`labels` (`none` when `labels` has no nonzero pixel). -/
def nearestNonzero (g : Grid) (p : Nat × Nat) : Option (Nat × Nat) :=
  (allPix (nrows g) (ncols g)).foldl (nearStep g p) none

/-- `morph.spread_labels`: each pixel takes the label of the nearest
labelled pixel (`labels.ravel()[features[0]*shape[1]+features[1]]`) and
is zeroed where `distances < maxdist` fails; the floating-point
comparison `sqrt(sqdist) < maxdist` is modelled exactly as
`sqdist < maxdist^2`. -/
def spread_labels (labels : Grid) (maxdist : Int) : Grid :=
  mkGrid (nrows labels) (ncols labels) (fun i j =>
    match nearestNonzero labels (i, j) with
    | none => 0
    | some s => if sqd (i, j) s < maxdist ^ 2 then gget labels s.1 s.2 else 0)

theorem nearStep_none_eq (g : Grid) (p s : Nat × Nat) :
    nearStep g p none s = if gget g s.1 s.2 ≠ 0 then some s else none := rfl

theorem nearStep_some_eq (g : Grid) (p s0 s : Nat × Nat) :
    nearStep g p (some s0) s =
      if gget g s.1 s.2 ≠ 0 then
        (if sqd p s < sqd p s0 then some s else some s0)
      else some s0 := rfl

/-- Validity of a candidate of the nearest-nonzero search. -/
def NearCand (g : Grid) (s : Nat × Nat) : Prop :=
  s.1 < nrows g ∧ s.2 < ncols g ∧ gget g s.1 s.2 ≠ 0

theorem nearStep_valid (g : Grid) (p : Nat × Nat) (l : List (Nat × Nat))
    (hl : ∀ s ∈ l, s.1 < nrows g ∧ s.2 < ncols g) :
    ∀ acc : Option (Nat × Nat), (∀ s0, acc = some s0 → NearCand g s0) →
      ∀ s2, l.foldl (nearStep g p) acc = some s2 → NearCand g s2 := by
  induction l with
  | nil =>
    intro acc hacc s2 hres
    exact hacc s2 hres
  | cons a t ih =>
    intro acc hacc s2 hres
    rw [List.foldl_cons] at hres
    refine ih (fun s hs => hl s (List.mem_cons_of_mem a hs)) _ ?_ s2 hres
    intro s0 hs0
    have ha := hl a (List.mem_cons_self a t)
    by_cases hnz : gget g a.1 a.2 ≠ 0
    · rcases acc with _ | s1
      · rw [nearStep_none_eq, if_pos hnz] at hs0
        exact (Option.some.inj hs0) ▸ ⟨ha.1, ha.2, hnz⟩
      · rw [nearStep_some_eq, if_pos hnz] at hs0
        by_cases hlt : sqd p a < sqd p s1
        · rw [if_pos hlt] at hs0
          exact (Option.some.inj hs0) ▸ ⟨ha.1, ha.2, hnz⟩
        · rw [if_neg hlt] at hs0
          exact hacc s0 hs0
    · rcases acc with _ | s1
      · rw [nearStep_none_eq, if_neg hnz] at hs0
        exact absurd hs0 (by simp)
      · rw [nearStep_some_eq, if_neg hnz] at hs0
        exact hacc s0 hs0

theorem nearStep_some (g : Grid) (p : Nat × Nat) :
    ∀ (l : List (Nat × Nat)) (s0 : Nat × Nat),
      ∃ s2, l.foldl (nearStep g p) (some s0) = some s2 := by
  intro l
  induction l with
  | nil => intro s0; exact ⟨s0, rfl⟩
  | cons a t ih =>
    intro s0
    rw [List.foldl_cons, nearStep_some_eq]
    by_cases hnz : gget g a.1 a.2 ≠ 0
    · rw [if_pos hnz]
      by_cases hlt : sqd p a < sqd p s0
      · rw [if_pos hlt]; exact ih a
      · rw [if_neg hlt]; exact ih s0
    · rw [if_neg hnz]; exact ih s0

theorem nearStep_min (g : Grid) (p : Nat × Nat) :
    ∀ (l : List (Nat × Nat)) (s0 : Nat × Nat) (s2 : Nat × Nat),
      l.foldl (nearStep g p) (some s0) = some s2 →
        sqd p s2 ≤ sqd p s0 ∧
          ∀ q ∈ l, gget g q.1 q.2 ≠ 0 → sqd p s2 ≤ sqd p q := by
  intro l
  induction l with
  | nil =>
    intro s0 s2 hres
    rw [Option.some.inj hres]
    exact ⟨le_refl _, by simp⟩
  | cons a t ih =>
    intro s0 s2 hres
    rw [List.foldl_cons, nearStep_some_eq] at hres
    by_cases hnz : gget g a.1 a.2 ≠ 0
    · rw [if_pos hnz] at hres
      by_cases hlt : sqd p a < sqd p s0
      · rw [if_pos hlt] at hres
        rcases ih a s2 hres with ⟨h1, h2⟩
        refine ⟨le_trans h1 (le_of_lt hlt), ?_⟩
        intro q hq hqnz
        rcases List.mem_cons.1 hq with rfl | hq
        · exact h1
        · exact h2 q hq hqnz
      · rw [if_neg hlt] at hres
        rcases ih s0 s2 hres with ⟨h1, h2⟩
        refine ⟨h1, ?_⟩
        intro q hq hqnz
        rcases List.mem_cons.1 hq with rfl | hq
        · exact le_trans h1 (by omega)
        · exact h2 q hq hqnz
    · rw [if_neg hnz] at hres
      rcases ih s0 s2 hres with ⟨h1, h2⟩
      refine ⟨h1, ?_⟩
      intro q hq hqnz
      rcases List.mem_cons.1 hq with rfl | hq
      · exact absurd hqnz hnz
      · exact h2 q hq hqnz

theorem nearStep_none_min (g : Grid) (p : Nat × Nat) :
    ∀ (l : List (Nat × Nat)) (s2 : Nat × Nat),
      l.foldl (nearStep g p) none = some s2 →
        ∀ q ∈ l, gget g q.1 q.2 ≠ 0 → sqd p s2 ≤ sqd p q := by
  intro l
  induction l with
  | nil =>
    intro s2 hres
    exact absurd hres (by simp)
  | cons a t ih =>
    intro s2 hres
    rw [List.foldl_cons, nearStep_none_eq] at hres
    by_cases hnz : gget g a.1 a.2 ≠ 0
    · rw [if_pos hnz] at hres
      rcases nearStep_min g p t a s2 hres with ⟨h1, h2⟩
      intro q hq hqnz
      rcases List.mem_cons.1 hq with rfl | hq
      · exact h1
      · exact h2 q hq hqnz
    · rw [if_neg hnz] at hres
      intro q hq hqnz
      rcases List.mem_cons.1 hq with rfl | hq
      · exact absurd hqnz hnz
      · exact ih s2 hres q hq hqnz

theorem nearStep_reaches (g : Grid) (p : Nat × Nat) :
    ∀ (l : List (Nat × Nat)) (s : Nat × Nat), s ∈ l → gget g s.1 s.2 ≠ 0 →
      ∃ s2, l.foldl (nearStep g p) none = some s2 := by
  intro l
  induction l with
  | nil => intro s hs; simp at hs
  | cons a t ih =>
    intro s hs hnz
    rw [List.foldl_cons, nearStep_none_eq]
    by_cases hanz : gget g a.1 a.2 ≠ 0
    · rw [if_pos hanz]
      exact nearStep_some g p t a
    · rw [if_neg hanz]
      rcases List.mem_cons.1 hs with rfl | hs
      · exact absurd hnz hanz
      · exact ih s hs hnz

theorem sqd_nonneg (p s : Nat × Nat) : 0 ≤ sqd p s := by
  unfold sqd
  positivity

theorem sqd_self (p : Nat × Nat) : sqd p p = 0 := by
  unfold sqd
  ring

theorem sqd_eq_zero {p s : Nat × Nat} (h : sqd p s = 0) : p = s := by
  unfold sqd at h
  have h1 : ((p.1 : Int) - (s.1 : Int)) ^ 2 = 0 ∧ ((p.2 : Int) - (s.2 : Int)) ^ 2 = 0 := by
    constructor <;> nlinarith [sq_nonneg ((p.1 : Int) - (s.1 : Int)),
      sq_nonneg ((p.2 : Int) - (s.2 : Int))]
  have h2 : (p.1 : Int) = (s.1 : Int) := by nlinarith [h1.1]
  have h3 : (p.2 : Int) = (s.2 : Int) := by nlinarith [h1.2]
  have h4 : p.1 = s.1 := by exact_mod_cast h2
  have h5 : p.2 = s.2 := by exact_mod_cast h3
  exact Prod.ext h4 h5

/-- **C5.** For every 2D label array with a nonzero pixel and every
`maxdist > 0`, `spread_labels` gives each pixel the label of the
nearest nonzero pixel (as chosen by the distance transform) when its
distance is strictly below `maxdist`, and 0 otherwise; pixels already
carrying a nonzero label keep their own label. -/
theorem spread_labels_spec (labels : Grid) (maxdist : Int) (hmd : 0 < maxdist)
    (hnz : ∃ q : Nat × Nat, q.1 < nrows labels ∧ q.2 < ncols labels ∧
      gget labels q.1 q.2 ≠ 0)
    (i j : Nat) (hi : i < nrows labels) (hj : j < ncols labels) :
    ∃ s : Nat × Nat, nearestNonzero labels (i, j) = some s ∧
      s.1 < nrows labels ∧ s.2 < ncols labels ∧ gget labels s.1 s.2 ≠ 0 ∧
      (∀ q : Nat × Nat, q.1 < nrows labels → q.2 < ncols labels →
        gget labels q.1 q.2 ≠ 0 → sqd (i, j) s ≤ sqd (i, j) q) ∧
      gget (spread_labels labels maxdist) i j =
        (if sqd (i, j) s < maxdist ^ 2 then gget labels s.1 s.2 else 0) ∧
      (gget labels i j ≠ 0 → gget (spread_labels labels maxdist) i j = gget labels i j) := by
  rcases hnz with ⟨q0, hq1, hq2, hq3⟩
  rcases nearStep_reaches labels (i, j) (allPix (nrows labels) (ncols labels)) q0
    (mem_allPix.2 ⟨hq1, hq2⟩) hq3 with ⟨s, hs⟩
  have hvalid : NearCand labels s :=
    nearStep_valid labels (i, j) (allPix (nrows labels) (ncols labels))
      (fun x hx => mem_allPix.1 hx) none (by intro s0 h; exact absurd h (by simp)) s hs
  have hmin : ∀ q : Nat × Nat, q.1 < nrows labels → q.2 < ncols labels →
      gget labels q.1 q.2 ≠ 0 → sqd (i, j) s ≤ sqd (i, j) q := by
    intro q hqa hqb hqc
    exact nearStep_none_min labels (i, j) (allPix (nrows labels) (ncols labels)) s hs
      q (mem_allPix.2 ⟨hqa, hqb⟩) hqc
  have hnn : nearestNonzero labels (i, j) = some s := hs
  have hval : gget (spread_labels labels maxdist) i j =
      (if sqd (i, j) s < maxdist ^ 2 then gget labels s.1 s.2 else 0) := by
    unfold spread_labels
    rw [gget_mkGrid _ hi hj, hnn]
  refine ⟨s, hnn, hvalid.1, hvalid.2.1, hvalid.2.2, hmin, hval, ?_⟩
  intro hself
  have hle : sqd (i, j) s ≤ 0 := by
    have := hmin (i, j) hi hj hself
    rw [sqd_self] at this
    exact this
  have h0 : sqd (i, j) s = 0 := le_antisymm hle (sqd_nonneg _ _)
  have hps : ((i, j) : Nat × Nat) = s := sqd_eq_zero h0
  rw [hval, h0, if_pos (by positivity), ← hps]

/-- Witness for C5 on `[[0, 3], [0, 0]]` with `maxdist = 2`. -/
theorem spread_labels_spec_witness :
    ∃ s : Nat × Nat, nearestNonzero [[0, 3], [0, 0]] (0, 0) = some s ∧
      s.1 < nrows [[0, 3], [0, 0]] ∧ s.2 < ncols [[0, 3], [0, 0]] ∧
      gget [[0, 3], [0, 0]] s.1 s.2 ≠ 0 ∧
      (∀ q : Nat × Nat, q.1 < nrows [[0, 3], [0, 0]] →
        q.2 < ncols [[0, 3], [0, 0]] → gget [[0, 3], [0, 0]] q.1 q.2 ≠ 0 →
        sqd (0, 0) s ≤ sqd (0, 0) q) ∧
      gget (spread_labels [[0, 3], [0, 0]] 2) 0 0 =
        (if sqd (0, 0) s < 2 ^ 2 then gget [[0, 3], [0, 0]] s.1 s.2 else 0) ∧
      (gget [[0, 3], [0, 0]] 0 0 ≠ 0 →
        gget (spread_labels [[0, 3], [0, 0]] 2) 0 0 = gget [[0, 3], [0, 0]] 0 0) :=
  spread_labels_spec [[0, 3], [0, 0]] 2 (by decide)
    ⟨(0, 1), by decide, by decide, by decide⟩ 0 0 (by decide) (by decide)

/-! ## `select_regions` (lines 188-201) -/

/-- A slice tuple as returned by `find_objects`:
`(slice(rmin, rstop), slice(cmin, cstop))`. -/
abbrev Slice := (Nat × Nat) × (Nat × Nat)

/-- Bounding-box slice of a set of pixels. -/
def bbox (pix : List (Nat × Nat)) : Slice :=
  match pix with
  | [] => ((0, 0), (0, 0))
  | p0 :: _ =>
    (((pix.map Prod.fst).foldl min p0.1, (pix.map Prod.fst).foldl max p0.1 + 1),
     ((pix.map Prod.snd).foldl min p0.2, (pix.map Prod.snd).foldl max p0.2 + 1))

/-- Modelled from the spec: `scipy.ndimage.measurements.find_objects` on
a label array — the bounding-box slice of each label `1..n`. -/
def findObjects (lab : List Nat) (r c n : Nat) : List Slice :=
  (List.range n).map (fun k0 =>
    bbox ((allPix r c).filter (fun p => decide (lab.getD (idx c p.1 p.2) 0 = k0 + 1))))

/-- Modelled from the spec: `np.argsort` — indices that sort the score
array ascending (ties in implementation-chosen order; modelled by a
stable insertion sort). -/
def argsort (scores : List Int) : List Nat :=
  List.insertionSort (fun a b => scores.getD a 0 ≤ scores.getD b 0)
    (List.range scores.length)

/-- The Python slice `l[-n:]`: the last `n` elements — except that
`l[-0:]` is the whole list. -/
def takeLastPy {α : Type} (l : List α) (n : Nat) : List α :=
  if n = 0 then l else l.drop (l.length - n)

/-- `morph.select_regions`: label the image, score each object's slice,
and keep (at most) the `nbest` highest-scoring components whose score
exceeds `min`. -/
def select_regions (binary : Grid) (f : Slice → Int) (min0 : Int) (nbest : Nat) :
    Grid :=
  let r := nrows binary
  let c := ncols binary
  let labels := (measurementsLabel binary).1
  let objects := findObjects labels r c (amaxNat labels)
  let scores := objects.map f
  let best := argsort scores
  let keep0 : List Int := List.replicate (objects.length + 1) 0
  let keep := (takeLastPy best nbest).foldl (fun k i =>
    if scores.getD i 0 ≤ min0 then k else k.set (i + 1) 1) keep0
  mkGrid r c (fun i j => keep.getD (labels.getD (idx c i j) 0) 0)

theorem argsort_perm (scores : List Int) :
    (argsort scores).Perm (List.range scores.length) :=
  List.perm_insertionSort _ _

theorem argsort_sorted (scores : List Int) :
    List.Sorted (fun a b => scores.getD a 0 ≤ scores.getD b 0) (argsort scores) := by
  haveI : IsTotal Nat (fun a b => scores.getD a 0 ≤ scores.getD b 0) :=
    ⟨fun a b => le_total _ _⟩
  haveI : IsTrans Nat (fun a b => scores.getD a 0 ≤ scores.getD b 0) :=
    ⟨fun a b c hab hbc => le_trans hab hbc⟩
  exact List.sorted_insertionSort _ _

theorem argsort_nodup (scores : List Int) : (argsort scores).Nodup :=
  (argsort_perm scores).nodup_iff.2 (List.nodup_range _)

theorem argsort_mem (scores : List Int) {i : Nat} :
    i ∈ argsort scores ↔ i < scores.length := by
  rw [(argsort_perm scores).mem_iff, List.mem_range]

theorem keep_fold_getD (scores : List Int) (min0 : Int) (is : List Nat)
    (acc : List Int) (k : Nat) (hk : ∀ i ∈ is, i + 1 < acc.length) :
    (is.foldl (fun kp i =>
        if scores.getD i 0 ≤ min0 then kp else kp.set (i + 1) 1) acc).getD k 0
      = if ∃ i ∈ is, i + 1 = k ∧ min0 < scores.getD i 0 then 1
        else acc.getD k 0 := by
  induction is generalizing acc with
  | nil => simp
  | cons i t ih =>
    rw [List.foldl_cons]
    have hkt : ∀ x ∈ t, x + 1 < acc.length :=
      fun x hx => hk x (List.mem_cons_of_mem i hx)
    by_cases hle : scores.getD i 0 ≤ min0
    · rw [if_pos hle, ih _ hkt]
      refine if_congr ?_ rfl rfl
      constructor
      · rintro ⟨x, hx, hxk, hxs⟩
        exact ⟨x, List.mem_cons_of_mem i hx, hxk, hxs⟩
      · rintro ⟨x, hx, hxk, hxs⟩
        rcases List.mem_cons.1 hx with rfl | hx
        · omega
        · exact ⟨x, hx, hxk, hxs⟩
    · rw [if_neg hle, ih _ (by intro x hx; rw [List.length_set]; exact hkt x hx)]
      by_cases hex : ∃ x ∈ t, x + 1 = k ∧ min0 < scores.getD x 0
      · rcases hex with ⟨x, hx, hxk, hxs⟩
        rw [if_pos ⟨x, hx, hxk, hxs⟩,
          if_pos ⟨x, List.mem_cons_of_mem i hx, hxk, hxs⟩]
      · rw [if_neg hex]
        by_cases hik : i + 1 = k
        · rw [← hik, getD_set_self_g _ _ _ (hk i (List.mem_cons_self i t)),
            if_pos ⟨i, List.mem_cons_self i t, rfl, by omega⟩]
        · rw [getD_set_ne_g _ _ _ hik, if_neg ?_]
          rintro ⟨x, hx, hxk, hxs⟩
          rcases List.mem_cons.1 hx with rfl | hx
          · exact hik hxk
          · exact hex ⟨x, hx, hxk, hxs⟩

theorem countP_lt_of_mem_not {α : Type} (p : α → Bool) (l : List α) (a : α)
    (ha : a ∈ l) (hpa : p a = false) : l.countP p < l.length := by
  induction l with
  | nil => simp at ha
  | cons b t ih =>
    rcases List.mem_cons.1 ha with rfl | ha
    · rw [List.countP_cons, hpa]
      have h0 : (if false = true then 1 else 0) = 0 := rfl
      rw [h0]
      simp only [List.length_cons]
      have := @List.countP_le_length _ p t
      omega
    · rw [List.countP_cons, List.length_cons]
      have := ih ha
      by_cases hpb : p b = true <;> simp [hpb] <;> omega

theorem takeLastPy_sublist {α : Type} (l : List α) (n : Nat) :
    (takeLastPy l n).Sublist l := by
  unfold takeLastPy
  split
  · exact List.Sublist.refl l
  · exact List.drop_sublist _ l

theorem takeLastPy_length {α : Type} (l : List α) (n : Nat) (hn : 1 ≤ n) :
    (takeLastPy l n).length ≤ n := by
  unfold takeLastPy
  rw [if_neg (by omega)]
  rw [List.length_drop]
  omega

/-- **C2 (amended).** For every binary image, scoring function, threshold
and `nbest ≥ 1`, `select_regions` marks with 1 the pixels of at most
`nbest` components (classes of the labeling): there is a set `K` of at
most `nbest` nonzero labels such that the mask is exactly the indicator
of `K`; every kept label's score exceeds `min`, and fewer than `nbest`
components score strictly higher than it. -/
theorem select_regions_spec (binary : Grid) (f : Slice → Int) (min0 : Int)
    (nbest : Nat) (hnb : 1 ≤ nbest) :
    ∃ K : List Nat,
      K.Nodup ∧ K.length ≤ nbest ∧ (∀ k ∈ K, k ≠ 0) ∧
      (∀ i j, i < nrows binary → j < ncols binary →
        gget (select_regions binary f min0 nbest) i j =
          (if (measurementsLabel binary).1.getD (idx (ncols binary) i j) 0 ∈ K
           then 1 else 0)) ∧
      (∀ k ∈ K,
        min0 < ((findObjects (measurementsLabel binary).1 (nrows binary)
            (ncols binary) (amaxNat (measurementsLabel binary).1)).map f).getD
            (k - 1) 0 ∧
        (List.range (findObjects (measurementsLabel binary).1 (nrows binary)
            (ncols binary) (amaxNat (measurementsLabel binary).1)).length).countP
          (fun i2 => decide
            (((findObjects (measurementsLabel binary).1 (nrows binary)
                (ncols binary) (amaxNat (measurementsLabel binary).1)).map f).getD
                (k - 1) 0 <
              ((findObjects (measurementsLabel binary).1 (nrows binary)
                (ncols binary) (amaxNat (measurementsLabel binary).1)).map f).getD
                i2 0)) < nbest) := by
  set lab := (measurementsLabel binary).1 with hlab
  set objects := findObjects lab (nrows binary) (ncols binary) (amaxNat lab)
    with hobjects
  set scores := objects.map f with hscores
  set best := argsort scores with hbest
  set dropB := takeLastPy best nbest with hdropB
  set keep0 : List Int := List.replicate (objects.length + 1) 0 with hkeep0
  set keep := dropB.foldl (fun k i =>
    if scores.getD i 0 ≤ min0 then k else k.set (i + 1) 1) keep0 with hkeep
  have hdropSub : dropB.Sublist best := takeLastPy_sublist best nbest
  have hmemlen : ∀ i ∈ dropB, i < objects.length := by
    intro i hi
    have h1 : i ∈ best := hdropSub.mem hi
    have h2 := (argsort_mem scores).1 h1
    rw [hscores, List.length_map] at h2
    exact h2
  have hred : select_regions binary f min0 nbest =
      mkGrid (nrows binary) (ncols binary)
        (fun i j => keep.getD (lab.getD (idx (ncols binary) i j) 0) 0) := by
    simp only [select_regions]
  refine ⟨(dropB.filter (fun i2 => decide (min0 < scores.getD i2 0))).map
    (fun i2 => i2 + 1), ?_, ?_, ?_, ?_, ?_⟩
  · refine List.Nodup.map (fun a b h => by omega) ?_
    exact ((hdropSub.nodup) (argsort_nodup scores)).filter _
  · calc ((dropB.filter (fun i2 => decide (min0 < scores.getD i2 0))).map
        (fun i2 => i2 + 1)).length
        = (dropB.filter (fun i2 => decide (min0 < scores.getD i2 0))).length :=
          List.length_map _ _
      _ ≤ dropB.length := List.length_filter_le _ _
      _ ≤ nbest := takeLastPy_length best nbest hnb
  · intro k hk
    rcases List.mem_map.1 hk with ⟨i2, _, rfl⟩
    omega
  · intro i j hi hj
    rw [hred, gget_mkGrid _ hi hj, hkeep,
      keep_fold_getD scores min0 dropB keep0 _
        (by
          intro x hx
          rw [hkeep0, List.length_replicate]
          have := hmemlen x hx
          omega)]
    rw [hkeep0, getD_replicate_zero]
    refine if_congr ?_ rfl rfl
    constructor
    · rintro ⟨x, hx, hxk, hxs⟩
      exact List.mem_map.2 ⟨x, List.mem_filter.2 ⟨hx, by simpa using hxs⟩, hxk⟩
    · intro hmem
      rcases List.mem_map.1 hmem with ⟨x, hx, hxk⟩
      rcases List.mem_filter.1 hx with ⟨hx1, hx2⟩
      exact ⟨x, hx1, hxk, by simpa using hx2⟩
  · intro k hk
    rcases List.mem_map.1 hk with ⟨i0, hi0, rfl⟩
    rcases List.mem_filter.1 hi0 with ⟨hi0d, hi0s⟩
    have hi0s2 : min0 < scores.getD i0 0 := by simpa using hi0s
    have hk1 : i0 + 1 - 1 = i0 := by omega
    constructor
    · rw [hk1]
      exact hi0s2
    · rw [hk1]
      have hlen : scores.length = objects.length := by
        rw [hscores, List.length_map]
      have hperm := argsort_perm scores
      set p := fun i2 => decide (scores.getD i0 0 < scores.getD i2 0) with hp
      have hcount1 : (List.range objects.length).countP p
          = best.countP p := by
        rw [← hlen]
        exact (List.Perm.countP_eq p hperm).symm
      have hsplit : best = best.take (best.length - nbest) ++
          best.drop (best.length - nbest) := (List.take_append_drop _ _).symm
      have hdropB2 : dropB = best.drop (best.length - nbest) := by
        rw [hdropB]
        unfold takeLastPy
        rw [if_neg (by omega)]
      have hsort := argsort_sorted scores
      rw [← hbest] at hsort
      have hpairs0 := hsort
      rw [hsplit] at hpairs0
      have hpairs := List.pairwise_append.1 hpairs0
      have htake0 : (best.take (best.length - nbest)).countP p = 0 := by
        rw [List.countP_eq_zero]
        intro x hx
        have hle : scores.getD x 0 ≤ scores.getD i0 0 := by
          refine hpairs.2.2 x hx i0 ?_
          rw [← hdropB2]
          exact hi0d
        intro hpx
        rw [hp] at hpx
        simp only [decide_eq_true_eq] at hpx
        omega
      have hdropc : (best.drop (best.length - nbest)).countP p <
          (best.drop (best.length - nbest)).length := by
        refine countP_lt_of_mem_not p _ i0 ?_ ?_
        · rw [← hdropB2]; exact hi0d
        · rw [hp]
          simp only [decide_eq_false_iff_not, not_lt]
          exact le_refl _
      have hdlen : (best.drop (best.length - nbest)).length ≤ nbest := by
        rw [← hdropB2]
        exact takeLastPy_length best nbest hnb
      have hcount2 : best.countP p =
          (best.take (best.length - nbest)).countP p +
            (best.drop (best.length - nbest)).countP p := by
        conv_lhs => rw [hsplit]
        exact List.countP_append _ _ _
      rw [hcount1, hcount2, htake0]
      omega

/-- **C2 (counterexample).** With `nbest = 0`, the Python slice
`best[-0:]` is `best[0:]`, the whole list, so every component scoring
above `min` is kept even though the claim demands at most 0: on `[[1]]`
with constant score 1, threshold 0 and `nbest = 0`, the mask is not 0 at
pixel `(0,0)`. -/
theorem select_regions_nbest_zero_cex :
    ¬ (gget (select_regions [[1]] (fun s => 1) 0 0) 0 0 = 0) := by
  decide

/-- Witness for C2 on a 2-component image keeping the best component. -/
theorem select_regions_spec_witness :
    ∃ K : List Nat,
      K.Nodup ∧ K.length ≤ 1 ∧ (∀ k ∈ K, k ≠ 0) ∧
      (∀ i j, i < nrows [[1, 0, 1]] → j < ncols [[1, 0, 1]] →
        gget (select_regions [[1, 0, 1]] (fun s => (s.2.2 : Int) - s.2.1) 0 1) i j =
          (if (measurementsLabel [[1, 0, 1]]).1.getD (idx (ncols [[1, 0, 1]]) i j) 0 ∈ K
           then 1 else 0)) ∧
      (∀ k ∈ K,
        0 < ((findObjects (measurementsLabel [[1, 0, 1]]).1 (nrows [[1, 0, 1]])
            (ncols [[1, 0, 1]]) (amaxNat (measurementsLabel [[1, 0, 1]]).1)).map
            (fun s => (s.2.2 : Int) - s.2.1)).getD (k - 1) 0 ∧
        (List.range (findObjects (measurementsLabel [[1, 0, 1]]).1 (nrows [[1, 0, 1]])
            (ncols [[1, 0, 1]]) (amaxNat (measurementsLabel [[1, 0, 1]]).1)).length).countP
          (fun i2 => decide
            (((findObjects (measurementsLabel [[1, 0, 1]]).1 (nrows [[1, 0, 1]])
                (ncols [[1, 0, 1]]) (amaxNat (measurementsLabel [[1, 0, 1]]).1)).map
                (fun s => (s.2.2 : Int) - s.2.1)).getD (k - 1) 0 <
              ((findObjects (measurementsLabel [[1, 0, 1]]).1 (nrows [[1, 0, 1]])
                (ncols [[1, 0, 1]]) (amaxNat (measurementsLabel [[1, 0, 1]]).1)).map
                (fun s => (s.2.2 : Int) - s.2.1)).getD i2 0)) < 1) :=
  select_regions_spec [[1, 0, 1]] (fun s => (s.2.2 : Int) - s.2.1) 0 1 (by decide)

end Morph
